import Mathlib

/-!
Verification of the airbot diff-parsing and sandboxed repository-access core.

The TypeScript sources `src/parsing/gitPath.ts` and `src/parsing/unifiedDiff.ts`
(the latter also carries the sandbox resolver and the Read/Glob/Grep content
tools) are embedded shallowly: JavaScript strings become `List Char`, the
stateful single-pass diff parser becomes a fold over an explicit state record,
and the Node path functions used by the sandbox resolver are embedded as
segment-list computations.
-/

namespace Airbot

/-- JavaScript strings are modelled as lists of characters. -/
abbrev Str := List Char

/-! ## Path codec (`src/parsing/gitPath.ts`) -/

/-- The `GIT_ESCAPE_SEQUENCES` table: single-character escapes Git emits. -/
def gitEscapeMap (c : Char) : Option Char :=
  if c = '"' then some '"'
  else if c = '\'' then some '\''
  else if c = ' ' then some ' '
  else if c = 't' then some '\t'
  else if c = 'n' then some '\n'
  else if c = 'r' then some '\r'
  else if c = '\\' then some '\\'
  else none

/-- The `/[0-7]/` test used for octal escape digits. -/
def isOctalDigit (c : Char) : Bool :=
  '0' ≤ c ∧ c ≤ '7'

/-- Numeric value of a (short) octal digit string, as `parseInt(_, 8)`. -/
def octalValue (ds : Str) : Nat :=
  ds.foldl (fun acc c => acc * 8 + (c.toNat - 48)) 0

/-- `stripEnclosingQuotes`: remove the first and last character when the string
has length at least two and both are `"`, or both are `'`. -/
def stripEnclosingQuotes (value : Str) : Str :=
  if 2 ≤ value.length ∧
      ((value.take 1 = ['"'] ∧ value.getLast? = some '"') ∨
        (value.take 1 = ['\''] ∧ value.getLast? = some '\'')) then
    (value.drop 1).dropLast
  else
    value

/-- `unescapeGitPath`: decode Git's C-style escapes; `\NNN` consumes one to
three octal digits; an unrecognized escape passes the backslash through and
rescans the following character. -/
def unescapeGitPath : Str → Str
  | [] => []
  | '\\' :: next :: rest =>
    match gitEscapeMap next with
    | some mapped => mapped :: unescapeGitPath rest
    | none =>
      if isOctalDigit next then
        let ds := (rest.takeWhile isOctalDigit).take 2
        Char.ofNat (octalValue (next :: ds)) :: unescapeGitPath (rest.drop ds.length)
      else
        '\\' :: unescapeGitPath (next :: rest)
  | c :: rest => c :: unescapeGitPath rest
termination_by s => s.length
decreasing_by
  all_goals simp only [List.length_cons, List.length_drop]
  all_goals omega

/-- `normalizeGitPath`: strip quotes, unescape, keep `/dev/null` as is,
otherwise strip a leading `a/` or `b/` prefix. -/
def normalizeGitPath (rawPath : Str) : Str :=
  let unescaped := unescapeGitPath (stripEnclosingQuotes rawPath)
  if unescaped = ("/dev/null").toList then
    unescaped
  else if (("a/").toList).isPrefixOf unescaped then
    unescaped.drop 2
  else if (("b/").toList).isPrefixOf unescaped then
    unescaped.drop 2
  else
    unescaped

/-- One step of the `tokenizeDiffGitPaths` scanner state machine; `current`
accumulates the token being built, `inQuotes` and `escaped` mirror the two
booleans of the source loop. -/
def tokenizeGo (inQuotes escaped : Bool) (current : Str) : Str → List Str
  | [] => if current = [] then [] else [current]
  | c :: rest =>
    if escaped then
      tokenizeGo inQuotes false (current ++ [c]) rest
    else if c = '\\' then
      tokenizeGo inQuotes true (current ++ [c]) rest
    else if c = '"' then
      tokenizeGo (!inQuotes) false (current ++ [c]) rest
    else if c = ' ' ∧ inQuotes = false then
      let rest' := rest.dropWhile (· = ' ')
      if current = [] then
        tokenizeGo inQuotes false [] rest'
      else
        current :: tokenizeGo inQuotes false [] rest'
    else
      tokenizeGo inQuotes false (current ++ [c]) rest
termination_by s => s.length
decreasing_by
  · simp
  · simp
  · simp
  · simp only [List.length_cons]
    have := (List.dropWhile_sublist (l := rest) (· = ' ')).length_le
    omega
  · simp only [List.length_cons]
    have := (List.dropWhile_sublist (l := rest) (· = ' ')).length_le
    omega
  · simp

/-- `tokenizeDiffGitPaths`: split the `diff --git` remainder on unquoted,
unescaped spaces, collapsing runs of separating spaces. -/
def tokenizeDiffGitPaths (input : Str) : List Str :=
  tokenizeGo false false [] input

/-- `splitDiffGitHeaderPaths`: require exactly two tokens whose quote-stripped
forms are `/dev/null` or carry the `a/` and `b/` prefixes respectively. -/
def splitDiffGitHeaderPaths (headerRemainder : Str) : Option (Str × Str) :=
  if headerRemainder = [] then
    none
  else
    match tokenizeDiffGitPaths headerRemainder with
    | [rawOldPath, rawNewPath] =>
      let unquotedOld := stripEnclosingQuotes rawOldPath
      let unquotedNew := stripEnclosingQuotes rawNewPath
      if (unquotedOld = ("/dev/null").toList ∨ (("a/").toList).isPrefixOf unquotedOld) ∧
          (unquotedNew = ("/dev/null").toList ∨ (("b/").toList).isPrefixOf unquotedNew) then
        some (rawOldPath, rawNewPath)
      else
        none
    | _ => none

/-! ## Unified diff parser (`src/parsing/unifiedDiff.ts`) -/

inductive DiffLineType
  | context
  | add
  | remove
deriving DecidableEq, Repr

structure DiffLine where
  type : DiffLineType
  content : Str
  oldLineNumber : Option Nat := none
  newLineNumber : Option Nat := none
  noNewlineAtEndOfFile : Bool := false
deriving DecidableEq, Repr

structure DiffHunk where
  header : Str
  oldStart : Nat
  oldLines : Nat
  newStart : Nat
  newLines : Nat
  sectionHeading : Option Str := none
  lines : List DiffLine := []
deriving DecidableEq, Repr

/-- The `rename` record; `from` is a Lean keyword, so the field is `from'`. -/
structure RenameInfo where
  from' : Option Str := none
  to' : Option Str := none
  rawFrom : Option Str := none
  rawTo : Option Str := none
deriving DecidableEq, Repr

structure ModeChange where
  oldMode : Option Str := none
  newMode : Option Str := none
deriving DecidableEq, Repr

structure DiffFile where
  oldPath : Str
  newPath : Str
  rawOldPath : Str
  rawNewPath : Str
  hunks : List DiffHunk := []
  isBinary : Bool := false
  isNewFile : Bool := false
  isDeletedFile : Bool := false
  rename : Option RenameInfo := none
  modeChange : Option ModeChange := none
  index : Option Str := none
deriving DecidableEq, Repr

/-- The whitespace class of JavaScript's `String.prototype.trim` (ASCII part). -/
def isJsWhitespace (c : Char) : Bool :=
  c = ' ' ∨ c = '\t' ∨ c = '\n' ∨ c = '\r' ∨ c = '\x0b' ∨ c = '\x0c'

/-- JavaScript `trim`: whitespace removed from both ends. -/
def jsTrim (s : Str) : Str :=
  ((s.dropWhile isJsWhitespace).reverse.dropWhile isJsWhitespace).reverse

def isAsciiDigit (c : Char) : Bool :=
  '0' ≤ c ∧ c ≤ '9'

/-- Decimal value of a digit string, as JavaScript `Number` on an all-digit
string (idealized to unbounded naturals). -/
def digitsToNat (ds : Str) : Nat :=
  ds.foldl (fun a c => a * 10 + (c.toNat - 48)) 0

/-- The optional `,(\d+)` group of the hunk-header regex: consumed only when a
comma directly followed by at least one digit is present. -/
def parseOptionalLen : Str → Option Nat × Str
  | ',' :: rest =>
    let ds := rest.takeWhile isAsciiDigit
    if ds = [] then (none, ',' :: rest)
    else (some (digitsToNat ds), rest.drop ds.length)
  | r => (none, r)

/-- The hunk-header regex `^@@ -(\d+)(?:,(\d+))? \+(\d+)(?:,(\d+))? @@ ?(.*)$`
as a deterministic scanner (the regex is deterministic on its input), building
the `DiffHunk` the parser constructs from a matching line: a missing length
defaults to 1, the heading is trimmed and dropped when blank. -/
def parseHunkHeader (line : Str) : Option DiffHunk :=
  if (("@@ -").toList).isPrefixOf line then
    let r1 := line.drop 4
    let d1 := r1.takeWhile isAsciiDigit
    if d1 = [] then none
    else
      let p1 := parseOptionalLen (r1.drop d1.length)
      if ((" +").toList).isPrefixOf p1.2 then
        let r3 := p1.2.drop 2
        let d2 := r3.takeWhile isAsciiDigit
        if d2 = [] then none
        else
          let p2 := parseOptionalLen (r3.drop d2.length)
          if ((" @@").toList).isPrefixOf p2.2 then
            let heading :=
              match p2.2.drop 3 with
              | ' ' :: h => h
              | h => h
            some {
              header := line
              oldStart := digitsToNat d1
              oldLines := p1.1.getD 1
              newStart := digitsToNat d2
              newLines := p2.1.getD 1
              sectionHeading := if jsTrim heading = [] then none else some (jsTrim heading)
              lines := [] }
          else none
      else none
  else none

/-- The mutable state of the single-pass parser loop. -/
structure ParseState where
  files : List DiffFile
  currentFile : Option DiffFile
  currentHunk : Option DiffHunk
  oldLineNumber : Nat
  newLineNumber : Nat
deriving DecidableEq, Repr

/-- In the source the open hunk is already aliased inside `currentFile.hunks`;
the pure model holds it apart and re-attaches it when it is closed. -/
def flushHunk (f : DiffFile) : Option DiffHunk → DiffFile
  | some h => { f with hunks := f.hunks ++ [h] }
  | none => f

/-- In the source the open file is already pushed into `files`; the pure model
appends it (with its open hunk re-attached) when it is closed. -/
def closeFile (s : ParseState) : List DiffFile :=
  match s.currentFile with
  | some f => s.files ++ [flushHunk f s.currentHunk]
  | none => s.files

/-- One iteration of the parser loop, faithful to the source's branch order. -/
def parseStep (s : ParseState) (line : Str) : ParseState :=
  if (("diff --git ").toList).isPrefixOf line then
    match splitDiffGitHeaderPaths (line.drop 11) with
    | none => { s with files := closeFile s, currentFile := none, currentHunk := none }
    | some (rawOldPath, rawNewPath) =>
      { s with
        files := closeFile s
        currentFile := some {
          oldPath := normalizeGitPath rawOldPath
          newPath := normalizeGitPath rawNewPath
          rawOldPath := rawOldPath
          rawNewPath := rawNewPath }
        currentHunk := none }
  else
    match s.currentFile with
    | none => s
    | some f =>
      if (("index ").toList).isPrefixOf line then
        { s with currentFile := some { f with index := some (jsTrim (line.drop 6)) } }
      else if (("new file mode ").toList).isPrefixOf line then
        { s with currentFile := some { f with
            isNewFile := true
            modeChange := some {
              oldMode := f.modeChange.bind ModeChange.oldMode
              newMode := some (jsTrim (line.drop 14)) } } }
      else if (("deleted file mode ").toList).isPrefixOf line then
        { s with currentFile := some { f with
            isDeletedFile := true
            modeChange := some {
              oldMode := some (jsTrim (line.drop 18))
              newMode := f.modeChange.bind ModeChange.newMode } } }
      else if (("old mode ").toList).isPrefixOf line then
        { s with currentFile := some { f with
            modeChange := some {
              oldMode := some (jsTrim (line.drop 9))
              newMode := f.modeChange.bind ModeChange.newMode } } }
      else if (("new mode ").toList).isPrefixOf line then
        { s with currentFile := some { f with
            modeChange := some {
              oldMode := f.modeChange.bind ModeChange.oldMode
              newMode := some (jsTrim (line.drop 9)) } } }
      else if (("rename from ").toList).isPrefixOf line then
        { s with currentFile := some { f with
            rename := some {
              from' := some (normalizeGitPath (line.drop 12))
              to' := f.rename.bind RenameInfo.to'
              rawFrom := some (line.drop 12)
              rawTo := f.rename.bind RenameInfo.rawTo }
            oldPath := normalizeGitPath (line.drop 12) } }
      else if (("rename to ").toList).isPrefixOf line then
        { s with currentFile := some { f with
            rename := some {
              from' := f.rename.bind RenameInfo.from'
              to' := some (normalizeGitPath (line.drop 10))
              rawFrom := f.rename.bind RenameInfo.rawFrom
              rawTo := some (line.drop 10) }
            newPath := normalizeGitPath (line.drop 10) } }
      else if (("--- ").toList).isPrefixOf line then
        { s with currentFile := some { f with
            oldPath := normalizeGitPath (line.drop 4)
            isNewFile :=
              if normalizeGitPath (line.drop 4) = ("/dev/null").toList then true
              else f.isNewFile } }
      else if (("+++ ").toList).isPrefixOf line then
        { s with currentFile := some { f with
            newPath := normalizeGitPath (line.drop 4)
            isDeletedFile :=
              if normalizeGitPath (line.drop 4) = ("/dev/null").toList then true
              else f.isDeletedFile } }
      else if (("Binary files ").toList).isPrefixOf line then
        { s with
          currentFile := some { flushHunk f s.currentHunk with isBinary := true }
          currentHunk := none }
      else
        match parseHunkHeader line with
        | some h =>
          { s with
            currentFile := some (flushHunk f s.currentHunk)
            currentHunk := some h
            oldLineNumber := h.oldStart
            newLineNumber := h.newStart }
        | none =>
          match s.currentHunk with
          | none => s
          | some hk =>
            if line = ("\\ No newline at end of file").toList then
              match hk.lines.getLast? with
              | none => s
              | some last =>
                { s with currentHunk := some { hk with
                    lines := hk.lines.dropLast ++
                      [{ last with noNewlineAtEndOfFile := true }] } }
            else
              match line with
              | [] => s
              | marker :: content =>
                if marker = ' ' then
                  { s with
                    currentHunk := some { hk with lines := hk.lines ++
                      [{ type := DiffLineType.context
                         content := content
                         oldLineNumber := some s.oldLineNumber
                         newLineNumber := some s.newLineNumber }] }
                    oldLineNumber := s.oldLineNumber + 1
                    newLineNumber := s.newLineNumber + 1 }
                else if marker = '+' then
                  { s with
                    currentHunk := some { hk with lines := hk.lines ++
                      [{ type := DiffLineType.add
                         content := content
                         newLineNumber := some s.newLineNumber }] }
                    newLineNumber := s.newLineNumber + 1 }
                else if marker = '-' then
                  { s with
                    currentHunk := some { hk with lines := hk.lines ++
                      [{ type := DiffLineType.remove
                         content := content
                         oldLineNumber := some s.oldLineNumber }] }
                    oldLineNumber := s.oldLineNumber + 1 }
                else s

/-- The `\r\n → \n` normalization applied before splitting into lines. -/
def normalizeNewlines : Str → Str
  | '\r' :: '\n' :: rest => '\n' :: normalizeNewlines rest
  | c :: rest => c :: normalizeNewlines rest
  | [] => []

/-- JavaScript `String.prototype.split` on a single-character separator. -/
def splitOnChar (sep : Char) : Str → List Str
  | [] => [[]]
  | c :: rest =>
    if c = sep then [] :: splitOnChar sep rest
    else
      match splitOnChar sep rest with
      | t :: ts => (c :: t) :: ts
      | [] => [[c]]

def initialParseState : ParseState :=
  { files := [], currentFile := none, currentHunk := none,
    oldLineNumber := 0, newLineNumber := 0 }

/-- `parseUnifiedDiff`: normalize newlines, split into lines, run the loop. -/
def parseUnifiedDiff (diff : Str) : List DiffFile :=
  closeFile ((splitOnChar '\n' (normalizeNewlines diff)).foldl parseStep initialParseState)

/-- Per-line numbering discipline of a hunk body starting at counters (o, n):
context lines carry both numbers and advance both, add lines carry exactly the
new number and advance it, remove lines carry exactly the old number and
advance it. -/
def linesNumberedFrom : Nat → Nat → List DiffLine → Bool
  | _, _, [] => true
  | o, n, l :: ls =>
    match l.type with
    | DiffLineType.context =>
      l.oldLineNumber == some o && l.newLineNumber == some n &&
        linesNumberedFrom (o + 1) (n + 1) ls
    | DiffLineType.add =>
      l.oldLineNumber == none && l.newLineNumber == some n &&
        linesNumberedFrom o (n + 1) ls
    | DiffLineType.remove =>
      l.oldLineNumber == some o && l.newLineNumber == none &&
        linesNumberedFrom (o + 1) n ls

/-- A hunk is consistent when its body is numbered from its declared starts. -/
def hunkConsistent (h : DiffHunk) : Bool :=
  linesNumberedFrom h.oldStart h.newStart h.lines

/-- Counter advancement per line, as performed by the parser loop. -/
def advanceCounters (p : Nat × Nat) (l : DiffLine) : Nat × Nat :=
  match l.type with
  | DiffLineType.context => (p.1 + 1, p.2 + 1)
  | DiffLineType.add => (p.1, p.2 + 1)
  | DiffLineType.remove => (p.1 + 1, p.2)

def countersAfter (p : Nat × Nat) (ls : List DiffLine) : Nat × Nat :=
  ls.foldl advanceCounters p

/-- What the numbering discipline requires of a line appended at counters p. -/
def lineMatchesCounters (l : DiffLine) (p : Nat × Nat) : Prop :=
  match l.type with
  | DiffLineType.context =>
    l.oldLineNumber = some p.1 ∧ l.newLineNumber = some p.2
  | DiffLineType.add =>
    l.oldLineNumber = none ∧ l.newLineNumber = some p.2
  | DiffLineType.remove =>
    l.oldLineNumber = some p.1 ∧ l.newLineNumber = none

/-- Agreement on every field the numbering discipline inspects. -/
def sameNumbering (x y : DiffLine) : Prop :=
  x.type = y.type ∧ x.oldLineNumber = y.oldLineNumber ∧
    x.newLineNumber = y.newLineNumber

def fileHunksConsistent (f : DiffFile) : Prop :=
  ∀ h ∈ f.hunks, hunkConsistent h = true

/-- Inductive invariant of the parser loop: every closed hunk is consistent,
and the open hunk is consistent with the running counters standing exactly at
the position after its recorded lines. -/
def stateInv (s : ParseState) : Prop :=
  (∀ f ∈ s.files, fileHunksConsistent f) ∧
  (∀ f, s.currentFile = some f → fileHunksConsistent f) ∧
  (∀ hk, s.currentHunk = some hk →
    linesNumberedFrom hk.oldStart hk.newStart hk.lines = true ∧
    countersAfter (hk.oldStart, hk.newStart) hk.lines =
      (s.oldLineNumber, s.newLineNumber))

/-! ## Sandbox resolver (`resolveWithinRepo`), over Node's POSIX path
semantics: `path.resolve` and `path.relative` are embedded as segment-list
computations (split on `/`, normalize `.`/`..`/empty segments, re-render). -/

/-- Node `path.isAbsolute` (POSIX): a leading slash. -/
def isAbsolute (s : Str) : Bool :=
  match s with
  | '/' :: _ => true
  | _ => false

def splitOnSlash (s : Str) : List Str :=
  splitOnChar '/' s

/-- One step of POSIX normalization: empty and `.` segments are dropped, `..`
pops (and is discarded at the root of an absolute path), anything else is
kept. -/
def normStep (stack : List Str) (seg : Str) : List Str :=
  if seg = [] ∨ seg = ['.'] then stack
  else if seg = ['.', '.'] then stack.dropLast
  else stack ++ [seg]

def normSegs (segs : List Str) : List Str :=
  segs.foldl normStep []

/-- Join segments with `/` separators. -/
def joinSegs : List Str → Str
  | [] => []
  | [x] => x
  | x :: xs => x ++ '/' :: joinSegs xs

/-- Render the normalized segments of an absolute path (`/` when empty). -/
def renderAbs (segs : List Str) : Str :=
  '/' :: joinSegs segs

/-- The normalized segment list of `path.resolve(root, p)` for an absolute
root: an absolute `p` stands alone, otherwise `p` is resolved under `root`. -/
def resolvedSegs (root p : Str) : List Str :=
  if isAbsolute p then normSegs (splitOnSlash p)
  else normSegs (splitOnSlash root ++ splitOnSlash p)

/-- Node `path.resolve(root, p)` for an absolute root. -/
def pathResolve (root p : Str) : Str :=
  renderAbs (resolvedSegs root p)

/-- Node `path.resolve(p)` for an absolute `p`: pure normalization. -/
def pathResolveOne (p : Str) : Str :=
  renderAbs (normSegs (splitOnSlash p))

def commonPrefixLen : List Str → List Str → Nat
  | x :: xs, y :: ys => if x = y then commonPrefixLen xs ys + 1 else 0
  | _, _ => 0

/-- Node `path.relative(from, to)` (POSIX) on absolute arguments: strip the
common segment prefix, climb with `..` for what remains of `from`, then
descend into what remains of `to`. -/
def pathRelative (fromP toP : Str) : Str :=
  let f := normSegs (splitOnSlash fromP)
  let t := normSegs (splitOnSlash toP)
  let c := commonPrefixLen f t
  joinSegs (List.replicate (f.length - c) (['.', '.']) ++ t.drop c)

inductive PathError
  | emptyPath
  | pathEscape
deriving DecidableEq, Repr

deriving instance DecidableEq for Except

/-- `resolveWithinRepo`: trim, reject blank input, resolve against the root,
and reject with a path-escape error when the root-relative form starts with
`..` or is absolute. -/
def resolveWithinRepo (repoRoot relativePath : Str) : Except PathError Str :=
  let trimmed := jsTrim relativePath
  if trimmed.length = 0 then Except.error PathError.emptyPath
  else
    let absolute := pathResolve repoRoot trimmed
    let normalizedRoot := pathResolveOne repoRoot
    let relative := pathRelative normalizedRoot absolute
    if (['.', '.']).isPrefixOf relative ∨ isAbsolute relative = true then
      Except.error PathError.pathEscape
    else
      Except.ok absolute

/-- `toRepoRelative`: the inverse mapping for reporting, `.` for the root. -/
def toRepoRelative (repoRoot absolutePath : Str) : Str :=
  let relative := pathRelative (pathResolveOne repoRoot) absolutePath
  if relative = [] then ['.'] else relative

/-- A well-formed normalized path segment: nonempty, not a dot segment, and
slash-free. -/
def goodSeg (seg : Str) : Prop :=
  seg ≠ [] ∧ seg ≠ ['.'] ∧ seg ≠ ['.', '.'] ∧ '/' ∉ seg

/-- `abs` lies inside `root`: the normalized segments of `root` are a prefix
of those of `abs`. -/
def insideRoot (root abs : Str) : Prop :=
  normSegs (splitOnSlash root) <+: normSegs (splitOnSlash abs)

/-- The (inQuotes, escaped) scanner state after reading a string, tracking the
two booleans of `tokenizeDiffGitPaths` on non-separating input. -/
def scanEnd (inQ esc : Bool) : Str → Bool × Bool
  | [] => (inQ, esc)
  | c :: rest =>
    if esc then scanEnd inQ false rest
    else if c = '\\' then scanEnd inQ true rest
    else if c = '"' then scanEnd (!inQ) false rest
    else scanEnd inQ false rest

/-- Whether the scanner, started in state (inQ, esc), meets an unquoted,
unescaped space — the only character that separates tokens. -/
def hasSeparatorSpace (inQ esc : Bool) : Str → Bool
  | [] => false
  | c :: rest =>
    if esc then hasSeparatorSpace inQ false rest
    else if c = '\\' then hasSeparatorSpace inQ true rest
    else if c = '"' then hasSeparatorSpace (!inQ) false rest
    else if c = ' ' ∧ inQ = false then true
    else hasSeparatorSpace inQ false rest

/-- The validation `splitDiffGitHeaderPaths` applies to its two tokens. -/
def headerTokenValid (o n : Str) : Prop :=
  (stripEnclosingQuotes o = ("/dev/null").toList ∨
    (("a/").toList).isPrefixOf (stripEnclosingQuotes o) = true) ∧
  (stripEnclosingQuotes n = ("/dev/null").toList ∨
    (("b/").toList).isPrefixOf (stripEnclosingQuotes n) = true)

instance (o n : Str) : Decidable (headerTokenValid o n) := by
  unfold headerTokenValid
  infer_instance

/-! ## Content tools (Glob and Grep) -/

def IGNORED_DIRECTORY_NAMES : List Str :=
  [(".git").toList, ("node_modules").toList, ("dist").toList,
    (".beads").toList, (".claude").toList, (".turbo").toList]

/-- The `/[/\\]+/` split of `splitPathSegments`: slash and backslash both
separate; splitting on each separator character and discarding empties is
equivalent to splitting on runs. -/
def splitOnSlashes : Str → List Str
  | [] => [[]]
  | c :: rest =>
    if c = '/' ∨ c = '\\' then [] :: splitOnSlashes rest
    else
      match splitOnSlashes rest with
      | t :: ts => (c :: t) :: ts
      | [] => [[c]]

def splitPathSegments (relativePath : Str) : List Str :=
  ((splitOnSlashes relativePath).map jsTrim).filter (· ≠ [])

def includesIgnoredDirectory (relativePath : Str) : Bool :=
  if relativePath = [] ∨ relativePath = ['.'] then false
  else (splitPathSegments relativePath).any
    fun seg => IGNORED_DIRECTORY_NAMES.contains seg

def lowerStr (s : Str) : Str :=
  s.map Char.toLower

/-- Lexicographic comparison on character codes. -/
def strLe : Str → Str → Bool
  | [], _ => true
  | _ :: _, [] => false
  | x :: xs, y :: ys =>
    if x.toNat < y.toNat then true
    else if y.toNat < x.toNat then false
    else strLe xs ys

/-- `localeCompare` with base sensitivity, modelled as case-insensitive
code-point comparison. -/
def ciLe (a b : Str) : Prop :=
  strLe (lowerStr a) (lowerStr b) = true

instance : DecidableRel ciLe := fun a b => by
  unfold ciLe
  infer_instance

/-- `new Set(values)` iteration order: first occurrences, in order. -/
def dedupGo (seen : List Str) : List Str → List Str
  | [] => []
  | x :: xs =>
    if seen.contains x then dedupGo seen xs
    else x :: dedupGo (seen ++ [x]) xs

def dedupFirst (values : List Str) : List Str :=
  dedupGo [] values

/-- `sortDistinct`: de-duplicate, then stable-sort case-insensitively (the
unique stable sort is modelled by insertion sort). -/
def sortDistinct (values : List Str) : List Str :=
  List.insertionSort ciLe (dedupFirst values)

structure GlobResult where
  matches' : List Str
  truncated : Bool
deriving DecidableEq, Repr

/-- The Glob executor's collection loop over the globber's yields `scan`:
validate through the sandbox resolver, drop ignored directories, stop as soon
as the limit is reached. -/
def globCollect (root baseDir : Str) (limit : Nat) (acc : List Str) :
    List Str → List Str × Bool
  | [] => (acc, false)
  | g :: rest =>
    match resolveWithinRepo root (pathResolve baseDir g) with
    | Except.error _ => globCollect root baseDir limit acc rest
    | Except.ok absolute =>
      let relative := toRepoRelative root absolute
      if includesIgnoredDirectory relative then
        globCollect root baseDir limit acc rest
      else if limit ≤ (acc ++ [relative]).length then
        (acc ++ [relative], true)
      else
        globCollect root baseDir limit (acc ++ [relative]) rest

/-- The Glob executor: collect (with early break), then sort-distinct. -/
def globTool (root baseDir : Str) (scan : List Str) (limit : Nat) : GlobResult :=
  let r := globCollect root baseDir limit [] scan
  { matches' := sortDistinct r.1, truncated := r.2 }

/-- The validated, root-relative form of every scan entry that survives the
sandbox and ignore filters, in collection order. -/
def globFiltered (root baseDir : Str) (scan : List Str) : List Str :=
  scan.filterMap fun g =>
    match resolveWithinRepo root (pathResolve baseDir g) with
    | Except.error _ => none
    | Except.ok absolute =>
      let relative := toRepoRelative root absolute
      if includesIgnoredDirectory relative then none else some relative

/-- Abstract regex engine: the sequence of (index, matched text) pairs that
the exec loop with the global flag yields on a given string. -/
def Matcher :=
  Str → List (Nat × Str)

/-- The literal single-character regex `/c/g`. -/
def charMatcher (ch : Char) : Matcher :=
  fun s => (s.enum.filter fun p => p.2 = ch).map fun p => (p.1, [ch])

/-- The regex `/c$/g` without the `m` flag: `$` asserts end of input, so the
exec loop yields exactly one match, at the last position, when the string
ends in `c` — and no match otherwise. -/
def endAnchorMatcher (ch : Char) : Matcher :=
  fun s => if s.getLast? = some ch then [(s.length - 1, [ch])] else []

structure LineYield where
  line : Str
  lineEndingChars : Nat
  lineBytes : Nat
  lineEndingBytes : Nat
deriving DecidableEq, Repr

/-- Byte length of a string under the abstract per-character byte model `bl`
(standing for `Buffer.byteLength` at the configured encoding). -/
def byteLenStr (bl : Char → Nat) (s : Str) : Nat :=
  (s.map bl).sum

/-- A line that was terminated by a newline: strip one trailing `\r` and
account for the ending characters and bytes. -/
def mkYieldNL (bl : Char → Nat) (raw : Str) : LineYield :=
  if raw.getLast? = some '\r' then
    { line := raw.dropLast, lineEndingChars := 2,
      lineBytes := byteLenStr bl raw.dropLast,
      lineEndingBytes := bl '\n' + bl '\r' }
  else
    { line := raw, lineEndingChars := 1,
      lineBytes := byteLenStr bl raw, lineEndingBytes := bl '\n' }

/-- `streamFileLines` as a pure function of the whole content: every
newline-terminated slice, then the final remainder when nonempty. -/
def streamLines (bl : Char → Nat) (content : Str) : List LineYield :=
  let parts := splitOnChar '\n' content
  parts.dropLast.map (mkYieldNL bl) ++
    (match parts.getLast? with
     | some last =>
       if last = [] then []
       else [{ line := last, lineEndingChars := 0,
               lineBytes := byteLenStr bl last, lineEndingBytes := 0 }]
     | none => [])

structure LineIndex where
  charOffsets : List Nat
  byteOffsets : List Nat
deriving DecidableEq, Repr

/-- The scan of `buildLineIndex`: starting at character index `i` and byte
offset `b`, record the character and byte offsets just after every newline. -/
def lineIndexGo (bl : Char → Nat) : Str → Nat → Nat → List Nat × List Nat
  | [], _, _ => ([], [])
  | c :: rest, i, b =>
    let r := lineIndexGo bl rest (i + 1) (b + bl c)
    if c = '\n' then ((i + 1) :: r.1, (b + bl c) :: r.2) else r

def buildLineIndex (bl : Char → Nat) (content : Str) : LineIndex :=
  { charOffsets := 0 :: (lineIndexGo bl content 0 0).1
    byteOffsets := 0 :: (lineIndexGo bl content 0 0).2 }

/-- The binary-search loop of `findLineStartIndex`; `low`/`high` are integers
because `high` passes through -1 at the boundaries, exactly as in the source. -/
def findGo (charOffsets byteOffsets : List Nat) (matchOffset : Nat) :
    Int → Int → Nat × Nat × Nat
  | low, high =>
    if h : low ≤ high then
      let mid := (low + high) / 2
      let offset := charOffsets.getD mid.toNat 0
      if offset ≤ matchOffset then
        if mid.toNat = charOffsets.length - 1 ∨
            matchOffset < charOffsets.getD (mid.toNat + 1) 0 then
          (mid.toNat + 1, offset, byteOffsets.getD mid.toNat 0)
        else
          findGo charOffsets byteOffsets matchOffset (mid + 1) high
      else
        findGo charOffsets byteOffsets matchOffset low (mid - 1)
    else
      (1, 0, 0)
termination_by low high => (high + 1 - low).toNat
decreasing_by
  · have h1 : low + low ≤ low + high := by omega
    have h2 : low + high ≤ high + high := by omega
    have h3 := Int.ediv_le_ediv (by omega : (0 : Int) < 2) h1
    have h4 := Int.ediv_le_ediv (by omega : (0 : Int) < 2) h2
    omega
  · have h1 : low + low ≤ low + high := by omega
    have h2 : low + high ≤ high + high := by omega
    have h3 := Int.ediv_le_ediv (by omega : (0 : Int) < 2) h1
    have h4 := Int.ediv_le_ediv (by omega : (0 : Int) < 2) h2
    omega

/-- `findLineStartIndex`: returns (line, startCharOffset, startByteOffset). -/
def findLineStartIndex (li : LineIndex) (matchOffset : Nat) : Nat × Nat × Nat :=
  findGo li.charOffsets li.byteOffsets matchOffset 0 ((li.charOffsets.length : Int) - 1)

def DEFAULT_CONTEXT_CHARS : Nat := 200

/-- `buildContextSnippet`: bounded context biased toward equal prefix and
suffix around the match; signed arithmetic mirrors the source, where
`available` can go negative for very long matches. -/
def buildContextSnippet (line : Str) (start length : Nat) : Str :=
  if line.length ≤ DEFAULT_CONTEXT_CHARS then line
  else
    let safeLength : Int := max (length : Int) 1
    let available : Int := (DEFAULT_CONTEXT_CHARS : Int) - safeLength
    let half := available.ediv 2
    let prefixStart := max ((start : Int) - half) 0
    let suffixEnd := min ((start : Int) + safeLength + half) (line.length : Int)
    let middle := (line.drop prefixStart.toNat).take (suffixEnd - prefixStart).toNat
    (if 0 < prefixStart then ['…'] else []) ++ middle ++
      (if suffixEnd < (line.length : Int) then ['…'] else [])

structure GrepMatch where
  path : Str
  line : Nat
  column : Nat
  match' : Str
  context : Str
  offset : Nat
  byteOffset : Nat
deriving DecidableEq, Repr

structure GrepResult where
  matches' : List GrepMatch
  truncated : Bool
deriving DecidableEq, Repr

/-- The inner exec loop of `findMatchesStreaming` on one line: push a match
record per regex match, stopping as soon as the limit is reached. -/
def pushLineMatches (root filePath : Str) (bl : Char → Nat) (limit : Nat)
    (lineNumber charOffset byteOffset : Nat) (line : Str) :
    List (Nat × Str) → List GrepMatch → List GrepMatch × Bool
  | [], acc => (acc, false)
  | (idx, text) :: rest, acc =>
    let g : GrepMatch := {
      path := toRepoRelative root filePath
      line := lineNumber
      column := idx + 1
      match' := text
      context := buildContextSnippet line idx text.length
      offset := charOffset + idx
      byteOffset := byteOffset + byteLenStr bl (line.take idx) }
    if limit ≤ (acc ++ [g]).length then (acc ++ [g], true)
    else pushLineMatches root filePath bl limit lineNumber charOffset byteOffset
      line rest (acc ++ [g])

/-- The per-line loop of `findMatchesStreaming`: check the limit before each
line, scan the line, accumulate character and byte offsets. -/
def streamGo (root filePath : Str) (bl : Char → Nat) (m : Matcher) (limit : Nat) :
    List LineYield → Nat → Nat → Nat → List GrepMatch → List GrepMatch × Bool
  | [], _, _, _, acc => (acc, false)
  | y :: rest, lineNumber, charOffset, byteOffset, acc =>
    if limit ≤ acc.length then (acc, true)
    else
      let r := pushLineMatches root filePath bl limit (lineNumber + 1) charOffset
        byteOffset y.line (m y.line) acc
      if r.2 then r
      else streamGo root filePath bl m limit rest (lineNumber + 1)
        (charOffset + y.line.length + y.lineEndingChars)
        (byteOffset + y.lineBytes + y.lineEndingBytes) r.1

/-- `findMatchesStreaming` on one file's content. -/
def streamScanFile (root filePath : Str) (bl : Char → Nat) (m : Matcher)
    (limit : Nat) (content : Str) (acc : List GrepMatch) :
    List GrepMatch × Bool :=
  streamGo root filePath bl m limit (streamLines bl content) 0 0 0 acc

/-- `content.indexOf(c, start)`. -/
def indexOfFrom (s : Str) (c : Char) (start : Nat) : Option Nat :=
  match (s.drop start).findIdx? (· = c) with
  | some j => some (start + j)
  | none => none

/-- The match record pushed by `findMatchesFullScan` for one whole-content
match at offset `idx`: line and line start looked up through the index, line
text sliced up to the next newline with a trailing CR stripped. -/
def fullGoMatch (root filePath : Str) (bl : Char → Nat) (content : Str)
    (li : LineIndex) (idx : Nat) (text : Str) : GrepMatch :=
  let r := findLineStartIndex li idx
  let lineEndIndex :=
    match indexOfFrom content '\n' idx with
    | some j => j
    | none => content.length
  let lineText0 := (content.drop r.2.1).take (lineEndIndex - r.2.1)
  let lineText := if lineText0.getLast? = some '\r' then lineText0.dropLast
    else lineText0
  { path := toRepoRelative root filePath
    line := r.1
    column := idx - r.2.1 + 1
    match' := text
    context := buildContextSnippet lineText (idx - r.2.1) text.length
    offset := idx
    byteOffset := r.2.2 + byteLenStr bl ((content.drop r.2.1).take (idx - r.2.1)) }

/-- The exec loop of `findMatchesFullScan`: translate every whole-content
match offset through the line index. -/
def fullGo (root filePath : Str) (bl : Char → Nat) (limit : Nat) (content : Str)
    (li : LineIndex) : List (Nat × Str) → List GrepMatch → List GrepMatch × Bool
  | [], acc => (acc, false)
  | (idx, text) :: rest, acc =>
    let g := fullGoMatch root filePath bl content li idx text
    if limit ≤ (acc ++ [g]).length then (acc ++ [g], true)
    else fullGo root filePath bl limit content li rest (acc ++ [g])

/-- `findMatchesFullScan` on one file's content. -/
def fullScanFile (root filePath : Str) (bl : Char → Nat) (m : Matcher)
    (limit : Nat) (content : Str) (acc : List GrepMatch) :
    List GrepMatch × Bool :=
  fullGo root filePath bl limit content (buildLineIndex bl content) (m content)
    acc

/-- `shouldUseFullScan`: the pattern could span lines. -/
def shouldUseFullScan (pattern : Str) (flags : Option Str) : Bool :=
  if (flags.getD []).contains 's' then true
  else if decide (List.IsInfix (['\n']) pattern) then true
  else if decide (List.IsInfix (("\\n").toList) pattern) ∨
      decide (List.IsInfix (("\\r").toList) pattern) then
    true
  else false

/-- The Grep executor's per-file loop over the collected (path, content)
pairs, with the limit checked both between files and inside each file. -/
def grepCollect (root : Str) (bl : Char → Nat) (m : Matcher) (useFull : Bool)
    (limit : Nat) : List (Str × Str) → List GrepMatch → List GrepMatch × Bool
  | [], acc => (acc, false)
  | (fp, content) :: rest, acc =>
    if limit ≤ acc.length then (acc, true)
    else
      let r := if useFull then fullScanFile root fp bl m limit content acc
        else streamScanFile root fp bl m limit content acc
      if r.2 then (r.1, true)
      else grepCollect root bl m useFull limit rest r.1

/-- The Grep executor over an abstract matcher and file list. -/
def grepTool (root : Str) (bl : Char → Nat) (m : Matcher) (useFull : Bool)
    (limit : Nat) (files : List (Str × Str)) : GrepResult :=
  let r := grepCollect root bl m useFull limit files []
  { matches' := r.1, truncated := r.2 }

/-- What the numbering-independent projection of a grep match keeps: the
claim compares the two strategies on (line, column, matched text). -/
def matchProjection (g : GrepMatch) : Nat × Nat × Str :=
  (g.line, g.column, g.match')

/-- Per-line matches re-based at whole-content offsets, line by line. -/
def expandGo (m : Matcher) : List LineYield → Nat → List (Nat × Str)
  | [], _ => []
  | y :: rest, off =>
    ((m y.line).map fun p => (off + p.1, p.2)) ++
      expandGo m rest (off + y.line.length + y.lineEndingChars)

/-- A matcher is line-local on a content when its whole-content matches are
exactly its per-line matches at the line-start offsets: the semantic form of
"the pattern cannot match across a line boundary". -/
def expandLineMatches (bl : Char → Nat) (m : Matcher) (content : Str) :
    List (Nat × Str) :=
  expandGo m (streamLines bl content) 0

/-- Character offset of the start of the k-th streamed line. -/
def offsetAt : List LineYield → Nat → Nat
  | _, 0 => 0
  | [], _ + 1 => 0
  | y :: rest, k + 1 => y.line.length + y.lineEndingChars + offsetAt rest k

/-- Spec of the character offsets recorded by `buildLineIndex`: the start
offset of every `\n`-separated part. -/
def partStarts : List Str → Nat → List Nat
  | [], _ => []
  | [_], o => [o]
  | p :: rest, o => o :: partStarts rest (o + p.length + 1)

/-- `streamLines` as a function of the `\n`-split parts, in a form that
recurses structurally over the parts. -/
def yieldsOf (bl : Char → Nat) (parts : List Str) : List LineYield :=
  parts.dropLast.map (mkYieldNL bl) ++
    (match parts.getLast? with
     | some last =>
       if last = [] then []
       else [{ line := last, lineEndingChars := 0,
               lineBytes := byteLenStr bl last, lineEndingBytes := 0 }]
     | none => [])

/-! ## Theorems for the path codec claims -/

theorem tokenizeGo_cons_esc (inQ : Bool) (current : Str) (c : Char) (l : Str) :
    tokenizeGo inQ true current (c :: l) = tokenizeGo inQ false (current ++ [c]) l := by
  simp [tokenizeGo]

theorem tokenizeGo_cons_backslash (inQ : Bool) (current : Str) (l : Str) :
    tokenizeGo inQ false current ('\\' :: l) =
      tokenizeGo inQ true (current ++ ['\\']) l := by
  simp [tokenizeGo]

theorem tokenizeGo_cons_quote (inQ : Bool) (current : Str) (l : Str) :
    tokenizeGo inQ false current ('"' :: l) =
      tokenizeGo (!inQ) false (current ++ ['"']) l := by
  simp [tokenizeGo]

theorem tokenizeGo_cons_space (current : Str) (l : Str) (hc : current ≠ []) :
    tokenizeGo false false current (' ' :: l) =
      current :: tokenizeGo false false [] (l.dropWhile (· = ' ')) := by
  simp [tokenizeGo, hc]

theorem tokenizeGo_cons_other (inQ : Bool) (current : Str) (c : Char) (l : Str)
    (h1 : c ≠ '\\') (h2 : c ≠ '"') (h3 : ¬(c = ' ' ∧ inQ = false)) :
    tokenizeGo inQ false current (c :: l) = tokenizeGo inQ false (current ++ [c]) l := by
  simp [tokenizeGo, h1, h2, h3]

/-- Running the tokenizer over a chunk that contains no unquoted, unescaped
space just accumulates the chunk onto the current token and advances the
scanner state. -/
theorem tokenizeGo_append_atomic (t : Str) : ∀ (inQ esc : Bool) (current rest : Str),
    hasSeparatorSpace inQ esc t = false →
    tokenizeGo inQ esc current (t ++ rest) =
      tokenizeGo (scanEnd inQ esc t).1 (scanEnd inQ esc t).2 (current ++ t) rest := by
  induction t with
  | nil =>
    intro inQ esc current rest h
    simp [scanEnd]
  | cons c t' ih =>
    intro inQ esc current rest h
    rw [List.cons_append]
    cases esc with
    | true =>
      rw [tokenizeGo_cons_esc]
      rw [show scanEnd inQ true (c :: t') = scanEnd inQ false t' by simp [scanEnd]]
      rw [show current ++ c :: t' = (current ++ [c]) ++ t' by simp]
      exact ih inQ false (current ++ [c]) rest (by simpa [hasSeparatorSpace] using h)
    | false =>
      by_cases hb : c = '\\'
      · subst hb
        rw [tokenizeGo_cons_backslash]
        rw [show scanEnd inQ false ('\\' :: t') = scanEnd inQ true t' by simp [scanEnd]]
        rw [show current ++ '\\' :: t' = (current ++ ['\\']) ++ t' by simp]
        exact ih inQ true (current ++ ['\\']) rest
          (by simpa [hasSeparatorSpace] using h)
      · by_cases hq : c = '"'
        · subst hq
          rw [tokenizeGo_cons_quote]
          rw [show scanEnd inQ false ('"' :: t') = scanEnd (!inQ) false t' by
            simp [scanEnd]]
          rw [show current ++ '"' :: t' = (current ++ ['"']) ++ t' by simp]
          exact ih (!inQ) false (current ++ ['"']) rest
            (by simpa [hasSeparatorSpace] using h)
        · by_cases hs : c = ' ' ∧ inQ = false
          · exfalso
            obtain ⟨rfl, rfl⟩ := hs
            simp [hasSeparatorSpace] at h
          · rw [tokenizeGo_cons_other inQ current c (t' ++ rest) hb hq hs]
            rw [show scanEnd inQ false (c :: t') = scanEnd inQ false t' by
              simp [scanEnd, hb, hq]]
            rw [show current ++ c :: t' = (current ++ [c]) ++ t' by simp]
            exact ih inQ false (current ++ [c]) rest
              (by simpa [hasSeparatorSpace, hb, hq, hs] using h)

theorem dropWhile_space_replicate (n : Nat) (t : Str) (ht : t.head? ≠ some ' ') :
    (List.replicate n ' ' ++ t).dropWhile (· = ' ') = t := by
  induction n with
  | zero =>
    cases t with
    | nil => rfl
    | cons c u =>
      have : ¬(c = ' ') := by
        intro hc
        exact ht (by simp [hc])
      simp [List.dropWhile_cons, this]
  | succ n ihn => simpa using ihn

theorem hasSeparatorSpace_head (t : Str) (h : hasSeparatorSpace false false t = false) :
    t.head? ≠ some ' ' := by
  cases t with
  | nil => simp
  | cons c u =>
    intro hc
    have : c = ' ' := by simpa using hc
    subst this
    simp [hasSeparatorSpace] at h

/-- C9: `stripEnclosingQuotes` removes the first and last characters of any
string of length at least 2 whose first and last characters are the same quote
character (`"` or `'`), even when those quotes are not a single wrapping
matching pair (for example `"a"b"` yields `a"b`); every other string, including
the one-character strings `"` and `'`, is returned unchanged. -/
theorem stripEnclosingQuotes_strips_same_quote_ends :
    (∀ s : Str,
      stripEnclosingQuotes s =
        if 2 ≤ s.length ∧ s.head? = s.getLast? ∧
            (s.head? = some '"' ∨ s.head? = some '\'') then
          (s.drop 1).dropLast
        else s) ∧
    stripEnclosingQuotes (("\"a\"b\"").toList) = ("a\"b").toList ∧
    stripEnclosingQuotes (("\"").toList) = ("\"").toList ∧
    stripEnclosingQuotes (("'").toList) = ("'").toList := by
  refine ⟨fun s => ?_, by decide, by decide, by decide⟩
  unfold stripEnclosingQuotes
  rcases s with _ | ⟨c, rest⟩
  · simp
  · have hiff : (((c :: rest).take 1 = ['"'] ∧ (c :: rest).getLast? = some '"') ∨
        ((c :: rest).take 1 = ['\''] ∧ (c :: rest).getLast? = some '\'')) ↔
        ((c :: rest).head? = (c :: rest).getLast? ∧
          ((c :: rest).head? = some '"' ∨ (c :: rest).head? = some '\'')) := by
      simp only [List.take_succ_cons, List.take_zero, List.head?_cons]
      constructor
      · rintro (⟨h1, h2⟩ | ⟨h1, h2⟩) <;> simp_all
      · rintro ⟨h1, h2 | h2⟩
        · obtain rfl : c = '"' := by injection h2
          exact Or.inl ⟨rfl, h1.symm⟩
        · obtain rfl : c = '\'' := by injection h2
          exact Or.inr ⟨rfl, h1.symm⟩
    exact if_congr (and_congr_right fun _ => hiff) rfl rfl

/-- C5: `splitDiffGitHeaderPaths` tokenizes the header remainder on unquoted,
unescaped spaces — a backslash always escapes the next character (also inside
quotes), a double-quoted region is opaque to space-splitting, and consecutive
raw separating spaces are collapsed — and returns the two raw tokens verbatim
with escapes preserved; it returns null unless exactly two tokens result and,
after quote-stripping, the first token is `/dev/null` or starts with `a/` and
the second is `/dev/null` or starts with `b/`. Part one characterizes the
result in terms of the tokenizer and the validation; part two shows that two
space-free chunks (as judged by the escape/quote scanner) separated by any
positive number of raw spaces tokenize to exactly those two chunks, verbatim. -/
theorem splitDiffGitHeaderPaths_tokenizes :
    (∀ r p q : Str,
      splitDiffGitHeaderPaths r = some (p, q) ↔
        tokenizeDiffGitPaths r = [p, q] ∧ headerTokenValid p q) ∧
    (∀ (t1 t2 : Str) (k : Nat), 1 ≤ k →
      t1 ≠ [] → hasSeparatorSpace false false t1 = false →
      scanEnd false false t1 = (false, false) →
      t2 ≠ [] → hasSeparatorSpace false false t2 = false →
      tokenizeDiffGitPaths (t1 ++ List.replicate k ' ' ++ t2) = [t1, t2]) := by
  constructor
  · intro r p q
    unfold splitDiffGitHeaderPaths headerTokenValid
    constructor
    · intro h
      by_cases hr : r = []
      · rw [if_pos hr] at h
        cases h
      · rw [if_neg hr] at h
        revert h
        cases htok : tokenizeDiffGitPaths r with
        | nil => intro h; cases h
        | cons a l =>
          cases l with
          | nil => intro h; cases h
          | cons b l2 =>
            cases l2 with
            | cons cc l3 => intro h; cases h
            | nil =>
              intro h
              dsimp only at h
              split_ifs at h with hv
              simp only [Option.some.injEq, Prod.mk.injEq] at h
              obtain ⟨rfl, rfl⟩ := h
              exact ⟨rfl, hv⟩
    · rintro ⟨htok, hv⟩
      have hr : r ≠ [] := by
        intro hnil
        subst hnil
        simp [tokenizeDiffGitPaths, tokenizeGo] at htok
      rw [if_neg hr, htok]
      exact if_pos hv
  · intro t1 t2 k hk h1a h1b h1c h2a h2b
    unfold tokenizeDiffGitPaths
    rw [List.append_assoc, tokenizeGo_append_atomic t1 false false [] _ h1b, h1c]
    obtain ⟨k', rfl⟩ : ∃ k', k = k' + 1 := ⟨k - 1, by omega⟩
    rw [show List.replicate (k' + 1) ' ' ++ t2 = ' ' :: (List.replicate k' ' ' ++ t2) by
      simp [List.replicate_succ]]
    rw [tokenizeGo_cons_space _ _ (by simpa using h1a)]
    rw [dropWhile_space_replicate k' t2 (hasSeparatorSpace_head t2 h2b)]
    rw [show t2 = t2 ++ [] by simp, tokenizeGo_append_atomic t2 false false [] [] h2b]
    simp only [List.append_nil, List.nil_append]
    rw [show tokenizeGo (scanEnd false false t2).1 (scanEnd false false t2).2 t2 [] =
      if t2 = [] then [] else [t2] by simp [tokenizeGo]]
    rw [if_neg h2a]

/-- C5 witness: the spec's own example header remainder, with escaped spaces
inside the tokens and one raw separating space, splits into the two raw tokens
unchanged. -/
theorem splitDiffGitHeaderPaths_tokenizes_witness :
    splitDiffGitHeaderPaths ((("a/docs/file\\ with\\ spaces.md").toList) ++
        List.replicate 1 ' ' ++ (("b/docs/file\\ with\\ spaces.md").toList)) =
      some ((("a/docs/file\\ with\\ spaces.md").toList),
        (("b/docs/file\\ with\\ spaces.md").toList)) := by
  have h2 := splitDiffGitHeaderPaths_tokenizes.2
    (("a/docs/file\\ with\\ spaces.md").toList)
    (("b/docs/file\\ with\\ spaces.md").toList) 1 (by decide) (by decide) (by decide)
    (by decide) (by decide) (by decide)
  exact (splitDiffGitHeaderPaths_tokenizes.1 _ _ _).mpr ⟨h2, by decide⟩

/-- C6 counterexample: the claim conditions the identity
`normalize(p) = unescape(stripQuotes(p))` on the raw string `p` not starting
with `a/` or `b/` and not being `/dev/null`, but `normalizeGitPath` tests the
quote-stripped, unescaped value instead: `p = "\"a/x\""` satisfies all three
raw-level conditions yet normalizes to `x`, not to `a/x`. -/
theorem normalizeGitPath_raw_conditions_counterexample :
    (("a/").toList).isPrefixOf (("\"a/x\"").toList) = false ∧
    (("b/").toList).isPrefixOf (("\"a/x\"").toList) = false ∧
    ("\"a/x\"").toList ≠ ("/dev/null").toList ∧
    normalizeGitPath (("\"a/x\"").toList) ≠
      unescapeGitPath (stripEnclosingQuotes (("\"a/x\"").toList)) := by
  refine ⟨by decide, by decide, by decide, ?_⟩
  simp [normalizeGitPath, unescapeGitPath, stripEnclosingQuotes, gitEscapeMap,
    isOctalDigit]

/-- C6 (amended): for every string `p` whose quote-stripped, unescaped form `u`
does not start with `a/` or `b/` and is not `/dev/null`,
`normalizeGitPath p = u = unescapeGitPath (stripEnclosingQuotes p)`. -/
theorem normalizeGitPath_eq_unescape_strip (p : Str)
    (ha : (("a/").toList).isPrefixOf (unescapeGitPath (stripEnclosingQuotes p)) = false)
    (hb : (("b/").toList).isPrefixOf (unescapeGitPath (stripEnclosingQuotes p)) = false)
    (hd : unescapeGitPath (stripEnclosingQuotes p) ≠ ("/dev/null").toList) :
    normalizeGitPath p = unescapeGitPath (stripEnclosingQuotes p) := by
  simp only [normalizeGitPath]
  split_ifs <;> simp_all

/-- C6 witness: the amended theorem applies to the concrete path
`docs/readme.md`. -/
theorem normalizeGitPath_eq_unescape_strip_witness :
    normalizeGitPath (("docs/readme.md").toList) =
      unescapeGitPath (stripEnclosingQuotes (("docs/readme.md").toList)) :=
  normalizeGitPath_eq_unescape_strip (("docs/readme.md").toList)
    (by simp [unescapeGitPath, stripEnclosingQuotes, gitEscapeMap, isOctalDigit,
      List.isPrefixOf])
    (by simp [unescapeGitPath, stripEnclosingQuotes, gitEscapeMap, isOctalDigit,
      List.isPrefixOf])
    (by simp [unescapeGitPath, stripEnclosingQuotes, gitEscapeMap, isOctalDigit])

/-! ## Theorems for the sandbox-resolver claim -/

theorem isPrefixOf_self_append : ∀ (l r : Str), l.isPrefixOf (l ++ r) = true
  | [], _ => by simp [List.isPrefixOf]
  | c :: cs, r => by simp [List.isPrefixOf, isPrefixOf_self_append cs r]

theorem commonPrefixLen_le : ∀ (f t : List Str), commonPrefixLen f t ≤ f.length := by
  intro f
  induction f with
  | nil => intro t; cases t <;> simp [commonPrefixLen]
  | cons x xs ih =>
    intro t
    cases t with
    | nil => simp [commonPrefixLen]
    | cons y ys =>
      unfold commonPrefixLen
      split_ifs
      · have := ih ys
        simp only [List.length_cons]
        omega
      · simp

theorem commonPrefixLen_eq_iff : ∀ (f t : List Str),
    commonPrefixLen f t = f.length ↔ f <+: t := by
  intro f
  induction f with
  | nil => intro t; simp [commonPrefixLen]
  | cons x xs ih =>
    intro t
    cases t with
    | nil => simp [commonPrefixLen]
    | cons y ys =>
      unfold commonPrefixLen
      split_ifs with hxy
      · subst hxy
        rw [List.cons_prefix_cons]
        constructor
        · intro h
          exact ⟨rfl, (ih ys).mp (by simpa using h)⟩
        · intro h
          have := (ih ys).mpr h.2
          simp [this]
      · constructor
        · intro h
          simp at h
        · intro h
          rw [List.cons_prefix_cons] at h
          exact absurd h.1 hxy

theorem isPrefixOf_joinSegs_head (a : Str) (xs : List Str) :
    a.isPrefixOf (joinSegs (a :: xs)) = true := by
  cases xs with
  | nil =>
    have h := isPrefixOf_self_append a []
    rw [List.append_nil] at h
    exact h
  | cons y ys => exact isPrefixOf_self_append a ('/' :: joinSegs (y :: ys))

theorem splitOnChar_no_sep (c : Char) (s : Str) :
    ∀ seg ∈ splitOnChar c s, c ∉ seg := by
  induction s with
  | nil =>
    intro seg h
    simp [splitOnChar] at h
    subst h
    simp
  | cons x rest ih =>
    intro seg h
    unfold splitOnChar at h
    split_ifs at h with hx
    · rcases List.mem_cons.mp h with rfl | h2
      · simp
      · exact ih seg h2
    · cases hsp : splitOnChar c rest with
      | nil =>
        rw [hsp] at h
        simp at h
        subst h
        intro hc
        rcases List.mem_cons.mp hc with rfl | hc2
        · exact hx rfl
        · simp at hc2
      | cons t ts =>
        rw [hsp] at h
        rcases List.mem_cons.mp h with rfl | h2
        · intro hc
          rcases List.mem_cons.mp hc with rfl | hc2
          · exact hx rfl
          · exact ih t (by rw [hsp]; exact List.mem_cons_self t ts) hc2
        · exact ih seg (by rw [hsp]; exact List.mem_cons_of_mem t h2)

theorem normStep_good (stack : List Str) (seg : Str)
    (hstack : ∀ x ∈ stack, goodSeg x) (hseg : '/' ∉ seg) :
    ∀ x ∈ normStep stack seg, goodSeg x := by
  unfold normStep
  split_ifs with h1 h2
  · exact hstack
  · intro x hx
    exact hstack x ((List.dropLast_sublist stack).subset hx)
  · intro x hx
    rcases List.mem_append.mp hx with hx | hx
    · exact hstack x hx
    · simp only [List.mem_singleton] at hx
      subst hx
      push_neg at h1
      exact ⟨h1.1, h1.2, h2, hseg⟩

theorem normSegs_good_aux : ∀ (segs acc : List Str), (∀ x ∈ acc, goodSeg x) →
    (∀ seg ∈ segs, '/' ∉ seg) → ∀ x ∈ segs.foldl normStep acc, goodSeg x := by
  intro segs
  induction segs with
  | nil =>
    intro acc hacc _
    simpa using hacc
  | cons a as ih =>
    intro acc hacc hsegs
    rw [List.foldl_cons]
    exact ih (normStep acc a) (normStep_good acc a hacc (hsegs a (by simp)))
      fun seg hs => hsegs seg (by simp [hs])

theorem normSegs_good (segs : List Str) (h : ∀ seg ∈ segs, '/' ∉ seg) :
    ∀ x ∈ normSegs segs, goodSeg x :=
  normSegs_good_aux segs [] (fun x hx => absurd hx (List.not_mem_nil x)) h

theorem resolvedSegs_good (root p : Str) : ∀ x ∈ resolvedSegs root p, goodSeg x := by
  unfold resolvedSegs
  split_ifs
  · exact normSegs_good _ (splitOnChar_no_sep '/' p)
  · refine normSegs_good _ ?_
    intro seg hseg
    rcases List.mem_append.mp hseg with h | h
    · exact splitOnChar_no_sep '/' root seg h
    · exact splitOnChar_no_sep '/' p seg h

theorem foldl_normStep_good : ∀ (segs acc : List Str), (∀ seg ∈ segs, goodSeg seg) →
    segs.foldl normStep acc = acc ++ segs := by
  intro segs
  induction segs with
  | nil =>
    intro acc _
    simp
  | cons a as ih =>
    intro acc h
    rw [List.foldl_cons]
    have hga := h a (by simp)
    rw [show normStep acc a = acc ++ [a] from by
      unfold normStep
      rw [if_neg (by push_neg; exact ⟨hga.1, hga.2.1⟩), if_neg hga.2.2.1]]
    rw [ih (acc ++ [a]) fun seg hs => h seg (by simp [hs])]
    simp

theorem splitOnChar_not_mem (c : Char) : ∀ (s : Str), c ∉ s → splitOnChar c s = [s] := by
  intro s
  induction s with
  | nil => intro _; rfl
  | cons x rest ih =>
    intro h
    unfold splitOnChar
    rw [if_neg (show ¬ x = c by intro hx; exact h (by simp [hx]))]
    rw [ih fun hc => h (List.mem_cons_of_mem x hc)]

theorem splitOnChar_append_sep (c : Char) : ∀ (x r : Str), c ∉ x →
    splitOnChar c (x ++ c :: r) = x :: splitOnChar c r := by
  intro x
  induction x with
  | nil =>
    intro r _
    simp [splitOnChar]
  | cons a as ih =>
    intro r h
    have hac : ¬ a = c := by
      intro ha
      exact h (by simp [ha])
    rw [List.cons_append]
    simp only [splitOnChar, if_neg hac]
    rw [ih r fun hc => h (List.mem_cons_of_mem a hc)]

theorem joinSegs_split_roundtrip : ∀ (t : List Str), t ≠ [] → (∀ x ∈ t, '/' ∉ x) →
    splitOnChar '/' (joinSegs t) = t := by
  intro t
  induction t with
  | nil => intro h; exact absurd rfl h
  | cons x xs ih =>
    intro _ hall
    cases xs with
    | nil => exact splitOnChar_not_mem '/' x (hall x (by simp))
    | cons y ys =>
      rw [show joinSegs (x :: y :: ys) = x ++ '/' :: joinSegs (y :: ys) from rfl]
      rw [splitOnChar_append_sep '/' x _ (hall x (by simp))]
      rw [ih (by simp) fun z hz => hall z (by simp [hz])]

theorem renderAbs_roundtrip : ∀ (t : List Str), (∀ x ∈ t, goodSeg x) →
    normSegs (splitOnSlash (renderAbs t)) = t := by
  intro t h
  cases t with
  | nil => rfl
  | cons x xs =>
    rw [show renderAbs (x :: xs) = '/' :: joinSegs (x :: xs) from rfl]
    rw [show splitOnSlash ('/' :: joinSegs (x :: xs)) =
      [] :: splitOnChar '/' (joinSegs (x :: xs)) from by simp [splitOnSlash, splitOnChar]]
    rw [joinSegs_split_roundtrip (x :: xs) (by simp) fun z hz => (h z hz).2.2.2]
    rw [show normSegs ([] :: x :: xs) = (x :: xs).foldl normStep [] from rfl]
    rw [foldl_normStep_good (x :: xs) [] h]
    rfl

theorem pathRelative_render (f t : List Str) (hf : ∀ x ∈ f, goodSeg x)
    (ht : ∀ x ∈ t, goodSeg x) :
    pathRelative (renderAbs f) (renderAbs t) =
      joinSegs (List.replicate (f.length - commonPrefixLen f t) (['.', '.']) ++
        t.drop (commonPrefixLen f t)) := by
  unfold pathRelative
  rw [renderAbs_roundtrip f hf, renderAbs_roundtrip t ht]

/-- C1: `resolveWithinRepo` rejects empty or blank input; for an absolute
root, any candidate whose resolution does not lie under the root's normalized
segments — whether through `..` climbing or an absolute path elsewhere — fails
with a path-escape error; and every absolute path it returns lies inside the
root. -/
theorem resolveWithinRepo_sandbox :
    (∀ root cand : Str, jsTrim cand = [] →
      resolveWithinRepo root cand = Except.error PathError.emptyPath) ∧
    (∀ root cand : Str, isAbsolute root = true → jsTrim cand ≠ [] →
      ¬ (normSegs (splitOnSlash root) <+: resolvedSegs root (jsTrim cand)) →
      resolveWithinRepo root cand = Except.error PathError.pathEscape) ∧
    (∀ root cand abs : Str, isAbsolute root = true →
      resolveWithinRepo root cand = Except.ok abs → insideRoot root abs) := by
  refine ⟨?_, ?_, ?_⟩
  · intro root cand htrim
    simp [resolveWithinRepo, htrim]
  · intro root cand _ htrim hprefix
    unfold resolveWithinRepo
    dsimp only
    rw [if_neg (by simpa [List.length_eq_zero] using htrim)]
    unfold pathResolve pathResolveOne
    rw [pathRelative_render (normSegs (splitOnSlash root))
      (resolvedSegs root (jsTrim cand))
      (normSegs_good _ (splitOnChar_no_sep '/' root)) (resolvedSegs_good root _)]
    have hcle := commonPrefixLen_le (normSegs (splitOnSlash root))
      (resolvedSegs root (jsTrim cand))
    have hclt : commonPrefixLen (normSegs (splitOnSlash root))
        (resolvedSegs root (jsTrim cand)) < (normSegs (splitOnSlash root)).length := by
      rcases Nat.lt_or_ge (commonPrefixLen (normSegs (splitOnSlash root))
        (resolvedSegs root (jsTrim cand))) (normSegs (splitOnSlash root)).length with h | h
      · exact h
      · exact absurd ((commonPrefixLen_eq_iff _ _).mp (Nat.le_antisymm hcle h)) hprefix
    obtain ⟨k, hk⟩ : ∃ k, (normSegs (splitOnSlash root)).length -
        commonPrefixLen (normSegs (splitOnSlash root)) (resolvedSegs root (jsTrim cand)) =
          k + 1 :=
      ⟨(normSegs (splitOnSlash root)).length -
        commonPrefixLen (normSegs (splitOnSlash root)) (resolvedSegs root (jsTrim cand)) - 1,
        by omega⟩
    rw [hk, List.replicate_succ, List.cons_append]
    rw [if_pos (Or.inl (isPrefixOf_joinSegs_head (['.', '.']) _))]
  · intro root cand abs _ hok
    unfold resolveWithinRepo at hok
    dsimp only at hok
    by_cases htrim : (jsTrim cand).length = 0
    · rw [if_pos htrim] at hok
      cases hok
    · rw [if_neg htrim] at hok
      unfold pathResolve pathResolveOne at hok
      rw [pathRelative_render (normSegs (splitOnSlash root))
        (resolvedSegs root (jsTrim cand))
        (normSegs_good _ (splitOnChar_no_sep '/' root)) (resolvedSegs_good root _)] at hok
      split_ifs at hok with hcond
      injection hok with hok
      subst hok
      unfold insideRoot
      rw [renderAbs_roundtrip (resolvedSegs root (jsTrim cand)) (resolvedSegs_good root _)]
      push_neg at hcond
      by_contra hnp
      have hcle := commonPrefixLen_le (normSegs (splitOnSlash root))
        (resolvedSegs root (jsTrim cand))
      have hclt : commonPrefixLen (normSegs (splitOnSlash root))
          (resolvedSegs root (jsTrim cand)) < (normSegs (splitOnSlash root)).length := by
        rcases Nat.lt_or_ge (commonPrefixLen (normSegs (splitOnSlash root))
          (resolvedSegs root (jsTrim cand))) (normSegs (splitOnSlash root)).length with h | h
        · exact h
        · exact absurd ((commonPrefixLen_eq_iff _ _).mp (Nat.le_antisymm hcle h)) hnp
      obtain ⟨k, hk⟩ : ∃ k, (normSegs (splitOnSlash root)).length -
          commonPrefixLen (normSegs (splitOnSlash root))
            (resolvedSegs root (jsTrim cand)) = k + 1 :=
        ⟨(normSegs (splitOnSlash root)).length -
          commonPrefixLen (normSegs (splitOnSlash root))
            (resolvedSegs root (jsTrim cand)) - 1, by omega⟩
      rw [hk, List.replicate_succ, List.cons_append] at hcond
      exact absurd (isPrefixOf_joinSegs_head (['.', '.']) _) (by simpa using hcond.1)

/-- C1 witness: the root `/repo` rejects the blank path, rejects a `..`
traversal and an absolute path elsewhere, and accepts an in-root path whose
result lies inside the root. -/
theorem resolveWithinRepo_sandbox_witness :
    resolveWithinRepo (("/repo").toList) ((" ").toList) =
      Except.error PathError.emptyPath ∧
    resolveWithinRepo (("/repo").toList) (("../../etc/passwd").toList) =
      Except.error PathError.pathEscape ∧
    resolveWithinRepo (("/repo").toList) (("/etc/passwd").toList) =
      Except.error PathError.pathEscape ∧
    insideRoot (("/repo").toList) (("/repo/src/main.ts").toList) := by
  refine ⟨?_, ?_, ?_, ?_⟩
  · exact resolveWithinRepo_sandbox.1 (("/repo").toList) ((" ").toList) (by decide)
  · exact resolveWithinRepo_sandbox.2.1 (("/repo").toList) (("../../etc/passwd").toList)
      (by decide) (by decide) (by decide)
  · exact resolveWithinRepo_sandbox.2.1 (("/repo").toList) (("/etc/passwd").toList)
      (by decide) (by decide) (by decide)
  · exact resolveWithinRepo_sandbox.2.2 (("/repo").toList) (("src/main.ts").toList)
      (("/repo/src/main.ts").toList) (by decide) (by decide)

/-! ## Theorems for the diff-parser claims -/

theorem parseStep_malformed_header (s : ParseState) (line : Str)
    (hpre : (("diff --git ").toList).isPrefixOf line = true)
    (hsplit : splitDiffGitHeaderPaths (line.drop 11) = none) :
    parseStep s line =
      { s with files := closeFile s, currentFile := none, currentHunk := none } := by
  simp only [parseStep, hpre, if_true, hsplit]

theorem parseStep_no_file_skips (t : ParseState) (l : Str)
    (hf : t.currentFile = none)
    (hl : (("diff --git ").toList).isPrefixOf l = false) :
    parseStep t l = t := by
  simp only [parseStep, hl, Bool.false_eq_true, if_false, hf]

theorem linesNumberedFrom_snoc (l : DiffLine) :
    ∀ (ls : List DiffLine) (o n : Nat),
    linesNumberedFrom o n ls = true →
    lineMatchesCounters l (countersAfter (o, n) ls) →
    linesNumberedFrom o n (ls ++ [l]) = true := by
  intro ls
  induction ls with
  | nil =>
    intro o n _ hl
    cases htype : l.type <;>
      simp only [lineMatchesCounters, htype, countersAfter, List.foldl_nil] at hl <;>
      simp [linesNumberedFrom, htype, hl]
  | cons a as ih =>
    intro o n h hl
    rw [List.cons_append]
    have hl' : lineMatchesCounters l (countersAfter (advanceCounters (o, n) a) as) := by
      simpa only [countersAfter, List.foldl_cons] using hl
    cases htypea : a.type <;>
      simp only [linesNumberedFrom, htypea, Bool.and_eq_true] at h ⊢ <;>
      obtain ⟨⟨h1, h2⟩, h3⟩ := h <;>
      refine ⟨⟨h1, h2⟩, ih _ _ h3 ?_⟩ <;>
      simpa only [advanceCounters, htypea] using hl'

theorem linesNumberedFrom_congr :
    ∀ {ls ls' : List DiffLine}, List.Forall₂ sameNumbering ls ls' →
    ∀ o n, linesNumberedFrom o n ls = linesNumberedFrom o n ls' ∧
      countersAfter (o, n) ls = countersAfter (o, n) ls' := by
  intro ls ls' hf
  induction hf with
  | nil => exact fun o n => ⟨rfl, rfl⟩
  | @cons a b as bs hxy htail ih =>
    intro o n
    obtain ⟨ht, ho, hn⟩ := hxy
    cases htype : a.type <;>
      have htb := ht.symm.trans htype <;>
      constructor <;>
      simp only [linesNumberedFrom, countersAfter, List.foldl_cons, advanceCounters,
        htype, htb, ho, hn] <;>
      first
        | exact congrArg _ ((ih _ _).1)
        | exact (ih _ _).2

theorem forall₂_refl_append_singleton {R : DiffLine → DiffLine → Prop} :
    ∀ (xs : List DiffLine) (x y : DiffLine), R x y → (∀ z ∈ xs, R z z) →
    List.Forall₂ R (xs ++ [x]) (xs ++ [y])
  | [], x, y, h, _ => by simpa using List.Forall₂.cons h List.Forall₂.nil
  | z :: zs, x, y, h, hall => by
    simp only [List.cons_append]
    exact List.Forall₂.cons (hall z (by simp))
      (forall₂_refl_append_singleton zs x y h fun w hw => hall w (by simp [hw]))

theorem linesNumberedFrom_setLast (ls : List DiffLine) (o n : Nat) (last : DiffLine)
    (h : ls.getLast? = some last) :
    (linesNumberedFrom o n (ls.dropLast ++ [{ last with noNewlineAtEndOfFile := true }]) =
      linesNumberedFrom o n ls) ∧
    countersAfter (o, n) (ls.dropLast ++ [{ last with noNewlineAtEndOfFile := true }]) =
      countersAfter (o, n) ls := by
  have hdecomp : ls.dropLast ++ [last] = ls :=
    List.dropLast_append_getLast? last (Option.mem_def.mpr h)
  have hforall : List.Forall₂ sameNumbering ls
      (ls.dropLast ++ [{ last with noNewlineAtEndOfFile := true }]) := by
    conv_lhs => rw [← hdecomp]
    exact forall₂_refl_append_singleton ls.dropLast last _ ⟨rfl, rfl, rfl⟩
      fun z _ => ⟨rfl, rfl, rfl⟩
  have hc := linesNumberedFrom_congr hforall o n
  exact ⟨hc.1.symm, hc.2.symm⟩

theorem fileHunksConsistent_flushHunk (f : DiffFile) (oh : Option DiffHunk)
    (hf : fileHunksConsistent f)
    (hh : ∀ hk, oh = some hk → hunkConsistent hk = true) :
    fileHunksConsistent (flushHunk f oh) := by
  cases oh with
  | none => exact hf
  | some hk =>
    intro h hmem
    simp only [flushHunk] at hmem
    rcases List.mem_append.mp hmem with hm | hm
    · exact hf h hm
    · simp only [List.mem_singleton] at hm
      rw [hm]
      exact hh hk rfl

theorem closeFile_consistent (s : ParseState) (h : stateInv s) :
    ∀ f ∈ closeFile s, fileHunksConsistent f := by
  intro f hf
  unfold closeFile at hf
  cases hcf : s.currentFile with
  | none =>
    rw [hcf] at hf
    exact h.1 f hf
  | some g =>
    rw [hcf] at hf
    rcases List.mem_append.mp hf with hm | hm
    · exact h.1 f hm
    · simp only [List.mem_singleton] at hm
      rw [hm]
      exact fileHunksConsistent_flushHunk g s.currentHunk (h.2.1 g hcf)
        fun hk hhk => (h.2.2 hk hhk).1

theorem parseHunkHeader_fields (line : Str) (h : DiffHunk)
    (hp : parseHunkHeader line = some h) :
    h.lines = [] ∧ h.header = line := by
  unfold parseHunkHeader at hp
  dsimp only at hp
  split_ifs at hp
  all_goals try cases hp
  all_goals exact ⟨rfl, rfl⟩

theorem stateInv_withFile (s : ParseState) (f g : DiffFile)
    (h : stateInv s) (hcf : s.currentFile = some f) (hg : g.hunks = f.hunks) :
    stateInv { s with currentFile := some g } := by
  obtain ⟨hfiles, hcur, hhunk⟩ := h
  refine ⟨hfiles, ?_, ?_⟩
  · intro f' hf'
    injection hf' with hf'
    subst hf'
    intro hh hm
    rw [hg] at hm
    exact hcur f hcf hh hm
  · exact fun hk hh => hhunk hk hh

theorem stateInv_step (s : ParseState) (line : Str) (h : stateInv s) :
    stateInv (parseStep s line) := by
  obtain ⟨hfiles, hcur, hhunk⟩ := h
  unfold parseStep
  by_cases h1 : (("diff --git ").toList).isPrefixOf line = true
  · rw [if_pos h1]
    cases hsp : splitDiffGitHeaderPaths (line.drop 11) with
    | none =>
      dsimp only
      refine ⟨?_, ?_, ?_⟩
      · exact closeFile_consistent s ⟨hfiles, hcur, hhunk⟩
      · intro f hf
        exact nomatch hf
      · intro hk hh
        exact nomatch hh
    | some pq =>
      obtain ⟨ro, rn⟩ := pq
      dsimp only
      refine ⟨?_, ?_, ?_⟩
      · exact closeFile_consistent s ⟨hfiles, hcur, hhunk⟩
      · intro f hf
        injection hf with hf
        subst hf
        intro hh hm
        simp at hm
      · intro hk hh
        exact nomatch hh
  · rw [if_neg h1]
    cases hcf : s.currentFile with
    | none =>
      dsimp only
      exact ⟨hfiles, hcur, hhunk⟩
    | some f =>
      dsimp only
      by_cases h2 : (("index ").toList).isPrefixOf line = true
      · rw [if_pos h2]
        exact stateInv_withFile s f _ ⟨hfiles, hcur, hhunk⟩ hcf rfl
      · rw [if_neg h2]
        by_cases h3 : (("new file mode ").toList).isPrefixOf line = true
        · rw [if_pos h3]
          exact stateInv_withFile s f _ ⟨hfiles, hcur, hhunk⟩ hcf rfl
        · rw [if_neg h3]
          by_cases h4 : (("deleted file mode ").toList).isPrefixOf line = true
          · rw [if_pos h4]
            exact stateInv_withFile s f _ ⟨hfiles, hcur, hhunk⟩ hcf rfl
          · rw [if_neg h4]
            by_cases h5 : (("old mode ").toList).isPrefixOf line = true
            · rw [if_pos h5]
              exact stateInv_withFile s f _ ⟨hfiles, hcur, hhunk⟩ hcf rfl
            · rw [if_neg h5]
              by_cases h6 : (("new mode ").toList).isPrefixOf line = true
              · rw [if_pos h6]
                exact stateInv_withFile s f _ ⟨hfiles, hcur, hhunk⟩ hcf rfl
              · rw [if_neg h6]
                by_cases h7 : (("rename from ").toList).isPrefixOf line = true
                · rw [if_pos h7]
                  exact stateInv_withFile s f _ ⟨hfiles, hcur, hhunk⟩ hcf rfl
                · rw [if_neg h7]
                  by_cases h8 : (("rename to ").toList).isPrefixOf line = true
                  · rw [if_pos h8]
                    exact stateInv_withFile s f _ ⟨hfiles, hcur, hhunk⟩ hcf rfl
                  · rw [if_neg h8]
                    by_cases h9 : (("--- ").toList).isPrefixOf line = true
                    · rw [if_pos h9]
                      exact stateInv_withFile s f _ ⟨hfiles, hcur, hhunk⟩ hcf rfl
                    · rw [if_neg h9]
                      by_cases h10 : (("+++ ").toList).isPrefixOf line = true
                      · rw [if_pos h10]
                        exact stateInv_withFile s f _ ⟨hfiles, hcur, hhunk⟩ hcf rfl
                      · rw [if_neg h10]
                        by_cases h11 : (("Binary files ").toList).isPrefixOf line = true
                        · rw [if_pos h11]
                          refine ⟨hfiles, ?_, fun hk hh => nomatch hh⟩
                          intro g hg
                          injection hg with hg
                          subst hg
                          intro hh hm
                          exact fileHunksConsistent_flushHunk f s.currentHunk
                            (hcur f hcf) (fun hk hhk => (hhunk hk hhk).1) hh hm
                        · rw [if_neg h11]
                          cases hph : parseHunkHeader line with
                          | some nh =>
                            obtain ⟨hlines, _⟩ := parseHunkHeader_fields line nh hph
                            refine ⟨hfiles, ?_, ?_⟩
                            · intro g hg
                              injection hg with hg
                              subst hg
                              exact fileHunksConsistent_flushHunk f s.currentHunk
                                (hcur f hcf) fun hk hhk => (hhunk hk hhk).1
                            · intro hk hh
                              injection hh with hh
                              subst hh
                              rw [hlines]
                              exact ⟨rfl, rfl⟩
                          | none =>
                            cases hch : s.currentHunk with
                            | none =>
                              dsimp only
                              exact ⟨hfiles, hcur, hhunk⟩
                            | some hk =>
                              dsimp only
                              by_cases hnl : line = ("\\ No newline at end of file").toList
                              · rw [if_pos hnl]
                                cases hgl : hk.lines.getLast? with
                                | none =>
                                  dsimp only
                                  exact ⟨hfiles, hcur, hhunk⟩
                                | some last =>
                                  dsimp only
                                  refine ⟨hfiles, ?_, ?_⟩
                                  · intro g hg
                                    injection hg with hg
                                    subst hg
                                    exact hcur f hcf
                                  intro hk' hh'
                                  injection hh' with hh'
                                  subst hh'
                                  obtain ⟨hn, hc⟩ := hhunk hk hch
                                  have hset := linesNumberedFrom_setLast hk.lines
                                    hk.oldStart hk.newStart last hgl
                                  exact ⟨hset.1.trans hn, hset.2.trans hc⟩
                              · rw [if_neg hnl]
                                cases hline : line with
                                | nil =>
                                  dsimp only
                                  exact ⟨hfiles, hcur, hhunk⟩
                                | cons marker content =>
                                  dsimp only
                                  obtain ⟨hn, hc⟩ := hhunk hk hch
                                  have hc' := hc
                                  simp only [countersAfter] at hc'
                                  by_cases hm1 : marker = ' '
                                  · rw [if_pos hm1]
                                    refine ⟨hfiles, ?_, ?_⟩
                                    · intro g hg
                                      injection hg with hg
                                      subst hg
                                      exact hcur f hcf
                                    intro hk' hh'
                                    injection hh' with hh'
                                    subst hh'
                                    constructor
                                    · refine linesNumberedFrom_snoc _ hk.lines
                                        hk.oldStart hk.newStart hn ?_
                                      rw [hc]
                                      exact ⟨rfl, rfl⟩
                                    · simp only [countersAfter, List.foldl_append,
                                        List.foldl_cons, List.foldl_nil, hc']
                                      rfl
                                  · rw [if_neg hm1]
                                    by_cases hm2 : marker = '+'
                                    · rw [if_pos hm2]
                                      refine ⟨hfiles, ?_, ?_⟩
                                      · intro g hg
                                        injection hg with hg
                                        subst hg
                                        exact hcur f hcf
                                      intro hk' hh'
                                      injection hh' with hh'
                                      subst hh'
                                      constructor
                                      · refine linesNumberedFrom_snoc _ hk.lines
                                          hk.oldStart hk.newStart hn ?_
                                        rw [hc]
                                        exact ⟨rfl, rfl⟩
                                      · simp only [countersAfter, List.foldl_append,
                                          List.foldl_cons, List.foldl_nil, hc']
                                        rfl
                                    · rw [if_neg hm2]
                                      by_cases hm3 : marker = '-'
                                      · rw [if_pos hm3]
                                        refine ⟨hfiles, ?_, ?_⟩
                                        · intro g hg
                                          injection hg with hg
                                          subst hg
                                          exact hcur f hcf
                                        intro hk' hh'
                                        injection hh' with hh'
                                        subst hh'
                                        constructor
                                        · refine linesNumberedFrom_snoc _ hk.lines
                                            hk.oldStart hk.newStart hn ?_
                                          rw [hc]
                                          exact ⟨rfl, rfl⟩
                                        · simp only [countersAfter, List.foldl_append,
                                            List.foldl_cons, List.foldl_nil, hc']
                                          rfl
                                      · rw [if_neg hm3]
                                        exact ⟨hfiles, hcur, hhunk⟩

theorem stateInv_foldl (ls : List Str) :
    ∀ s : ParseState, stateInv s → stateInv (ls.foldl parseStep s) := by
  induction ls with
  | nil => exact fun s hs => hs
  | cons a as ih =>
    intro s hs
    rw [List.foldl_cons]
    exact ih (parseStep s a) (stateInv_step s a hs)

theorem parseOptionalLen_not_comma (c : Char) (r : Str) (h : ¬ c = ',') :
    parseOptionalLen (c :: r) = (none, c :: r) := by
  unfold parseOptionalLen
  split
  · next rest heq =>
    injection heq with h1 _
    exact absurd h1 h
  · rfl

theorem initialParseState_inv : stateInv initialParseState := by
  refine ⟨?_, ?_, ?_⟩
  · intro f hf
    exact absurd hf (List.not_mem_nil f)
  · intro f hf
    exact nomatch hf
  · intro hk hh
    exact nomatch hh

/-- C3: every hunk produced by `parseUnifiedDiff` satisfies the numbering
discipline — the running counters start at `oldStart`/`newStart`, every
context line carries both line numbers and advances both counters by one,
every add line carries exactly the new number and advances it, every remove
line carries exactly the old number and advances it — and a hunk header
without an explicit length after either start parses with that length
defaulted to 1. -/
theorem parseUnifiedDiff_hunk_numbering :
    (∀ diff : Str, ∀ f ∈ parseUnifiedDiff diff, ∀ h ∈ f.hunks,
      hunkConsistent h = true) ∧
    (∀ ds1 ds2 : Str, ds1 ≠ [] → (∀ c ∈ ds1, isAsciiDigit c = true) →
      ds2 ≠ [] → (∀ c ∈ ds2, isAsciiDigit c = true) →
      parseHunkHeader
          ((("@@ -").toList) ++ (ds1 ++ (((" +").toList) ++ (ds2 ++ ((" @@").toList))))) =
        some {
          header :=
            (("@@ -").toList) ++ (ds1 ++ (((" +").toList) ++ (ds2 ++ ((" @@").toList))))
          oldStart := digitsToNat ds1
          oldLines := 1
          newStart := digitsToNat ds2
          newLines := 1
          sectionHeading := none
          lines := [] }) := by
  constructor
  · intro diff f hf h hh
    have hinv := stateInv_foldl (splitOnChar '\n' (normalizeNewlines diff))
      initialParseState initialParseState_inv
    exact closeFile_consistent _ hinv f hf h hh
  · intro ds1 ds2 h1 hd1 h2 hd2
    have hA : List.takeWhile isAsciiDigit
        (ds1 ++ ((" +").toList ++ (ds2 ++ (" @@").toList))) = ds1 := by
      rw [List.takeWhile_append_of_pos hd1]
      rw [show ((" +").toList ++ (ds2 ++ (" @@").toList)) =
        ' ' :: (['+'] ++ (ds2 ++ (" @@").toList)) from rfl]
      rw [List.takeWhile_cons_of_neg (by decide)]
      simp
    have hB : List.takeWhile isAsciiDigit (ds2 ++ (" @@").toList) = ds2 := by
      rw [List.takeWhile_append_of_pos hd2]
      rw [show ((" @@").toList) = ' ' :: ['@', '@'] from rfl]
      rw [List.takeWhile_cons_of_neg (by decide)]
      simp
    have hpre1 : (("@@ -").toList).isPrefixOf
        ((("@@ -").toList) ++ (ds1 ++ ((" +").toList ++ (ds2 ++ (" @@").toList)))) = true :=
      isPrefixOf_self_append _ _
    have hpre2 : ((" +").toList).isPrefixOf
        (' ' :: ('+' :: (ds2 ++ (" @@").toList))) = true :=
      isPrefixOf_self_append ((" +").toList) (ds2 ++ (" @@").toList)
    unfold parseHunkHeader
    dsimp only
    rw [if_pos hpre1]
    rw [List.drop_left' (show (("@@ -").toList).length = 4 from rfl)]
    rw [hA, if_neg h1, List.drop_left]
    rw [show ((" +").toList ++ (ds2 ++ (" @@").toList)) =
      ' ' :: ('+' :: (ds2 ++ (" @@").toList)) from rfl]
    rw [parseOptionalLen_not_comma ' ' _ (by decide)]
    rw [if_pos hpre2]
    rw [show List.drop 2 (' ' :: ('+' :: (ds2 ++ (" @@").toList))) =
      ds2 ++ (" @@").toList from rfl]
    rw [hB, if_neg h2, List.drop_left]
    rw [show ((" @@").toList) = ' ' :: ['@', '@'] from rfl]
    rw [parseOptionalLen_not_comma ' ' _ (by decide)]
    rw [if_pos (show (' ' :: ['@', '@']).isPrefixOf (' ' :: ['@', '@']) = true by decide)]
    rfl

/-- C3 witness: a concretely parsed hunk satisfies the numbering discipline,
and `@@ -5 +3 @@` parses with both lengths defaulted to 1. -/
theorem parseUnifiedDiff_hunk_numbering_witness :
    hunkConsistent ⟨("@@ -1 +2 @@").toList, 1, 1, 2, 1, none,
      [⟨DiffLineType.context, ['c'], some 1, some 2, false⟩,
       ⟨DiffLineType.add, ['a'], none, some 3, false⟩,
       ⟨DiffLineType.remove, ['r'], some 2, none, false⟩]⟩ = true ∧
    parseHunkHeader
        ((("@@ -").toList) ++ (['5'] ++ (((" +").toList) ++ (['3'] ++ ((" @@").toList))))) =
      some ⟨(("@@ -").toList) ++ (['5'] ++ (((" +").toList) ++ (['3'] ++ ((" @@").toList)))),
        digitsToNat ['5'], 1, digitsToNat ['3'], 1, none, []⟩ := by
  constructor
  · exact parseUnifiedDiff_hunk_numbering.1
      (("diff --git a/s b/s\n@@ -1 +2 @@\n c\n+a\n-r").toList)
      ⟨['s'], ['s'], ("a/s").toList, ("b/s").toList,
        [⟨("@@ -1 +2 @@").toList, 1, 1, 2, 1, none,
          [⟨DiffLineType.context, ['c'], some 1, some 2, false⟩,
           ⟨DiffLineType.add, ['a'], none, some 3, false⟩,
           ⟨DiffLineType.remove, ['r'], some 2, none, false⟩]⟩],
        false, false, false, none, none, none⟩
      (by simp [parseUnifiedDiff, parseStep, splitOnChar, normalizeNewlines,
        initialParseState, closeFile, flushHunk, parseHunkHeader, parseOptionalLen,
        digitsToNat, isAsciiDigit, jsTrim, isJsWhitespace, splitDiffGitHeaderPaths,
        tokenizeDiffGitPaths, tokenizeGo, normalizeGitPath, unescapeGitPath,
        stripEnclosingQuotes, gitEscapeMap, isOctalDigit, List.isPrefixOf])
      ⟨("@@ -1 +2 @@").toList, 1, 1, 2, 1, none,
        [⟨DiffLineType.context, ['c'], some 1, some 2, false⟩,
         ⟨DiffLineType.add, ['a'], none, some 3, false⟩,
         ⟨DiffLineType.remove, ['r'], some 2, none, false⟩]⟩
      (by simp)
  · exact parseUnifiedDiff_hunk_numbering.2 ['5'] ['3'] (by decide) (by decide)
      (by decide) (by decide)

/-- C4 counterexample: a `diff --git /dev/null b/foo.txt` header opens a file
whose `oldPath` is `/dev/null` with `isNewFile` still false, and a `Binary
files` marker after a hunk leaves the file with `isBinary` true and a
non-empty hunk list — so none of the three claimed per-file implications holds
for every input. -/
theorem parseUnifiedDiff_flags_counterexample :
    ((parseUnifiedDiff (("diff --git /dev/null b/foo.txt").toList)).map
      (fun f => (f.oldPath, f.isNewFile)) = [((("/dev/null").toList), false)]) ∧
    ((parseUnifiedDiff
        (("diff --git a/x b/x\n@@ -1 +1 @@\n c\nBinary files a/x and b/x differ").toList)).map
      (fun f => (f.isBinary, f.hunks.length)) = [(true, 1)]) := by
  constructor <;>
    simp [parseUnifiedDiff, parseStep, splitOnChar, normalizeNewlines,
      initialParseState, closeFile, flushHunk, parseHunkHeader, parseOptionalLen,
      digitsToNat, isAsciiDigit, jsTrim, isJsWhitespace, splitDiffGitHeaderPaths,
      tokenizeDiffGitPaths, tokenizeGo, normalizeGitPath, unescapeGitPath,
      stripEnclosingQuotes, gitEscapeMap, isOctalDigit, List.isPrefixOf]

/-- C4 (amended): the `/dev/null` flag implications hold at the lines that the
spec describes — processing a `--- ` line sets `oldPath` and, when the
normalized path is `/dev/null`, sets `isNewFile`; a `+++ ` line does the same
for `newPath`/`isDeletedFile`; and a `Binary files ` line sets `isBinary` and
clears the open-hunk pointer. The global per-file invariants of the claim fail
only for `/dev/null` arriving through the `diff --git` header tokens or a
rename line, and for hunks opened before (or after) a `Binary files` marker. -/
theorem parseStep_devnull_and_binary_lines (s : ParseState) (f : DiffFile)
    (rest : Str) (hcf : s.currentFile = some f) :
    ((parseStep s ((("--- ").toList) ++ rest)).currentFile = some { f with
        oldPath := normalizeGitPath rest
        isNewFile :=
          if normalizeGitPath rest = ("/dev/null").toList then true
          else f.isNewFile }) ∧
    ((parseStep s ((("+++ ").toList) ++ rest)).currentFile = some { f with
        newPath := normalizeGitPath rest
        isDeletedFile :=
          if normalizeGitPath rest = ("/dev/null").toList then true
          else f.isDeletedFile }) ∧
    ((parseStep s ((("Binary files ").toList) ++ rest)).currentFile =
      some { flushHunk f s.currentHunk with isBinary := true }) ∧
    ((parseStep s ((("Binary files ").toList) ++ rest)).currentHunk = none) := by
  refine ⟨?_, ?_, ?_, ?_⟩ <;>
    simp [parseStep, hcf, List.isPrefixOf]

/-- C4 witness: a `--- /dev/null` line concretely sets `isNewFile` on the
current file. -/
theorem parseStep_devnull_and_binary_lines_witness :
    (parseStep ⟨[], some ⟨['x'], ['x'], ['x'], ['x'], [], false, false, false,
        none, none, none⟩, none, 0, 0⟩
      ((("--- ").toList) ++ (("/dev/null").toList))).currentFile =
      some ⟨("/dev/null").toList, ['x'], ['x'], ['x'], [], false, true, false,
        none, none, none⟩ := by
  have h := parseStep_devnull_and_binary_lines
    ⟨[], some ⟨['x'], ['x'], ['x'], ['x'], [], false, false, false,
      none, none, none⟩, none, 0, 0⟩
    ⟨['x'], ['x'], ['x'], ['x'], [], false, false, false, none, none, none⟩
    (("/dev/null").toList) rfl
  refine h.1.trans ?_
  simp [normalizeGitPath, unescapeGitPath, stripEnclosingQuotes, gitEscapeMap,
    isOctalDigit, List.isPrefixOf]

/-- C2: `parseUnifiedDiff` is total by construction in this embedding (it is a
Lean function, defined for every input string); on a `diff --git ` header line
whose remainder fails to split into two valid path tokens, no file is opened —
the state is reset to no current file and no current hunk (the previously open
file, already part of the output, is merely closed) — and every following line
up to the next `diff --git ` header leaves the state, and hence the output,
unchanged. -/
theorem parseUnifiedDiff_malformed_header_skips (s : ParseState) (line : Str)
    (rest : List Str)
    (hpre : (("diff --git ").toList).isPrefixOf line = true)
    (hsplit : splitDiffGitHeaderPaths (line.drop 11) = none)
    (hrest : ∀ l ∈ rest, (("diff --git ").toList).isPrefixOf l = false) :
    (line :: rest).foldl parseStep s =
      { s with files := closeFile s, currentFile := none, currentHunk := none } ∧
    closeFile ((line :: rest).foldl parseStep s) = closeFile s := by
  have hstep := parseStep_malformed_header s line hpre hsplit
  have hskip : ∀ (ls : List Str) (t : ParseState), t.currentFile = none →
      (∀ l ∈ ls, (("diff --git ").toList).isPrefixOf l = false) →
      ls.foldl parseStep t = t := by
    intro ls
    induction ls with
    | nil => intro t _ _; rfl
    | cons a as ih =>
      intro t h1 hall
      rw [List.foldl_cons, parseStep_no_file_skips t a h1 (hall a (by simp))]
      exact ih t h1 fun l hl => hall l (by simp [hl])
  have hmain : (line :: rest).foldl parseStep s =
      { s with files := closeFile s, currentFile := none, currentHunk := none } := by
    rw [List.foldl_cons, hstep]
    exact hskip rest _ rfl hrest
  refine ⟨hmain, ?_⟩
  rw [hmain]
  simp [closeFile]

/-- C2 witness: a malformed header followed by dependent lines yields no file
at all. -/
theorem parseUnifiedDiff_malformed_header_skips_witness :
    ((("diff --git invalid").toList) ::
        [(" ctx").toList, ("--- a/f").toList]).foldl parseStep initialParseState =
      initialParseState := by
  have h := parseUnifiedDiff_malformed_header_skips initialParseState
    (("diff --git invalid").toList) [(" ctx").toList, ("--- a/f").toList]
    (by decide)
    (by simp [splitDiffGitHeaderPaths, tokenizeDiffGitPaths, tokenizeGo,
      stripEnclosingQuotes])
    (by decide)
  exact h.1.trans (by rfl)

/-! ## Theorems for the Glob claim -/

theorem strLe_total : ∀ a b : Str, strLe a b = true ∨ strLe b a = true := by
  intro a
  induction a with
  | nil => intro b; left; rfl
  | cons x xs ih =>
    intro b
    cases b with
    | nil => right; rfl
    | cons y ys =>
      simp only [strLe]
      rcases Nat.lt_trichotomy x.toNat y.toNat with h | h | h
      · left; rw [if_pos h]
      · have h1 : ¬ x.toNat < y.toNat := by omega
        have h2 : ¬ y.toNat < x.toNat := by omega
        rw [if_neg h1, if_neg h2, if_neg h2, if_neg h1]
        exact ih ys
      · right; rw [if_pos h]

theorem strLe_trans : ∀ a b c : Str, strLe a b = true → strLe b c = true →
    strLe a c = true := by
  intro a
  induction a with
  | nil => intro b c _ _; rfl
  | cons x xs ih =>
    intro b c hab hbc
    cases b with
    | nil => simp [strLe] at hab
    | cons y ys =>
      cases c with
      | nil => simp [strLe] at hbc
      | cons z zs =>
        simp only [strLe] at hab hbc ⊢
        split_ifs at hab hbc ⊢ <;>
          first
          | rfl
          | exact ih ys zs hab hbc
          | exact Bool.noConfusion hab
          | exact Bool.noConfusion hbc
          | omega

instance : IsTotal Str ciLe :=
  ⟨fun a b => strLe_total (lowerStr a) (lowerStr b)⟩

instance : IsTrans Str ciLe :=
  ⟨fun a b c hab hbc => strLe_trans (lowerStr a) (lowerStr b) (lowerStr c) hab hbc⟩

theorem dedupGo_not_seen : ∀ (l seen : List Str) (x : Str),
    x ∈ dedupGo seen l → ¬ x ∈ seen := by
  intro l
  induction l with
  | nil => intro seen x hx; simp [dedupGo] at hx
  | cons y ys ih =>
    intro seen x hx
    simp only [dedupGo] at hx
    by_cases h : seen.contains y = true
    · rw [if_pos h] at hx
      exact ih seen x hx
    · rw [if_neg h] at hx
      rcases List.mem_cons.mp hx with rfl | hx'
      · intro hmem
        exact h (by simpa using hmem)
      · intro hmem
        exact ih (seen ++ [y]) x hx' (List.mem_append_left [y] hmem)

theorem dedupGo_nodup : ∀ (l seen : List Str), (dedupGo seen l).Nodup := by
  intro l
  induction l with
  | nil => intro seen; simp [dedupGo]
  | cons y ys ih =>
    intro seen
    simp only [dedupGo]
    by_cases h : seen.contains y = true
    · rw [if_pos h]; exact ih seen
    · rw [if_neg h]
      refine List.nodup_cons.mpr ⟨?_, ih (seen ++ [y])⟩
      intro hy
      exact dedupGo_not_seen ys (seen ++ [y]) y hy (by simp)

theorem dedupFirst_nodup (l : List Str) : (dedupFirst l).Nodup :=
  dedupGo_nodup l []

theorem sortDistinct_nodup (l : List Str) : (sortDistinct l).Nodup :=
  ((List.perm_insertionSort ciLe (dedupFirst l)).symm).nodup (dedupFirst_nodup l)

theorem sortDistinct_sorted (l : List Str) : List.Sorted ciLe (sortDistinct l) :=
  List.sorted_insertionSort ciLe (dedupFirst l)

theorem globFiltered_nil (root baseDir : Str) :
    globFiltered root baseDir [] = [] := rfl

theorem globFiltered_cons_error (root baseDir g : Str) (rest : List Str)
    (e : PathError)
    (h : resolveWithinRepo root (pathResolve baseDir g) = Except.error e) :
    globFiltered root baseDir (g :: rest) = globFiltered root baseDir rest := by
  simp only [globFiltered, List.filterMap_cons, h]

theorem globFiltered_cons_ok (root baseDir g : Str) (rest : List Str) (a : Str)
    (h : resolveWithinRepo root (pathResolve baseDir g) = Except.ok a) :
    globFiltered root baseDir (g :: rest) =
      (if includesIgnoredDirectory (toRepoRelative root a) = true then []
        else [toRepoRelative root a]) ++ globFiltered root baseDir rest := by
  simp only [globFiltered, List.filterMap_cons, h]
  by_cases hig : includesIgnoredDirectory (toRepoRelative root a) = true
  · rw [if_pos hig, if_pos hig, List.nil_append]
  · rw [if_neg hig, if_neg hig, List.singleton_append]

theorem globCollect_characterization (root baseDir : Str) (limit : Nat) :
    ∀ (scan acc : List Str), acc.length < limit →
    globCollect root baseDir limit acc scan =
      (acc ++ (globFiltered root baseDir scan).take (limit - acc.length),
        decide (limit - acc.length ≤ (globFiltered root baseDir scan).length)) := by
  intro scan
  induction scan with
  | nil =>
    intro acc h
    have hd : ¬ (limit - acc.length ≤ (globFiltered root baseDir []).length) := by
      rw [globFiltered_nil]
      simp only [List.length_nil]
      omega
    simp only [globCollect, globFiltered_nil, List.take_nil, List.append_nil]
    have hd' : decide (limit - acc.length ≤
        (globFiltered root baseDir ([] : List Str)).length) = false := by
      rw [globFiltered_nil]
      simpa using fun hle => hd (by rw [globFiltered_nil]; simpa using hle)
    rw [globFiltered_nil] at hd'
    rw [hd']
  | cons g rest ih =>
    intro acc h
    cases hres : resolveWithinRepo root (pathResolve baseDir g) with
    | error e =>
      rw [globFiltered_cons_error root baseDir g rest e hres]
      simp only [globCollect, hres]
      exact ih acc h
    | ok a =>
      rw [globFiltered_cons_ok root baseDir g rest a hres]
      simp only [globCollect, hres]
      by_cases hig : includesIgnoredDirectory (toRepoRelative root a) = true
      · rw [if_pos hig, if_pos hig, List.nil_append]
        exact ih acc h
      · rw [if_neg hig, if_neg hig, List.singleton_append]
        by_cases hlim : limit ≤ (acc ++ [toRepoRelative root a]).length
        · rw [if_pos hlim]
          have hl1 : limit - acc.length = 1 := by
            simp only [List.length_append, List.length_cons, List.length_nil] at hlim
            omega
          rw [hl1, List.take_succ_cons, List.take_zero]
          have hd : (limit - acc.length ≤
              (toRepoRelative root a :: globFiltered root baseDir rest).length) := by
            rw [hl1]
            simp only [List.length_cons]
            omega
          simp [hd]
        · rw [if_neg hlim]
          have hlen : (acc ++ [toRepoRelative root a]).length < limit := by omega
          rw [ih (acc ++ [toRepoRelative root a]) hlen]
          have hlen' : (acc ++ [toRepoRelative root a]).length = acc.length + 1 := by
            simp
          have hsub : limit - acc.length = (limit - (acc.length + 1)) + 1 := by
            simp only [List.length_append, List.length_cons, List.length_nil] at hlim
            omega
          have e1 : acc ++ [toRepoRelative root a] ++
              List.take (limit - (acc ++ [toRepoRelative root a]).length)
                (globFiltered root baseDir rest) =
              acc ++ List.take (limit - acc.length)
                (toRepoRelative root a :: globFiltered root baseDir rest) := by
            rw [hlen', hsub, List.take_succ_cons, List.append_assoc,
              List.singleton_append]
          have e2 : decide (limit - (acc ++ [toRepoRelative root a]).length ≤
              (globFiltered root baseDir rest).length) =
              decide (limit - acc.length ≤
                (toRepoRelative root a :: globFiltered root baseDir rest).length) := by
            rw [hlen', List.length_cons]
            exact decide_eq_decide.mpr (by omega)
          rw [e1, e2]

/-- C8: counterexample — Glob sorts AFTER truncating, not before. With root
`/r`, scan order `[b.txt, a.txt]` and `maxResults = 1`, the collection loop
stops after pushing `b.txt`, so the returned list is `[b.txt]` with
`truncated = true`, which is NOT a prefix of the full sorted match set
`[a.txt, b.txt]`; the result therefore depends on collection order. -/
theorem globTool_sorts_after_truncation_counterexample :
    (globTool (("/r").toList) (("/r").toList)
        [("b.txt").toList, ("a.txt").toList] 1).truncated = true ∧
    (globTool (("/r").toList) (("/r").toList)
        [("b.txt").toList, ("a.txt").toList] 1).matches' = [("b.txt").toList] ∧
    sortDistinct (globFiltered (("/r").toList) (("/r").toList)
        [("b.txt").toList, ("a.txt").toList]) =
      [("a.txt").toList, ("b.txt").toList] ∧
    ¬ ((globTool (("/r").toList) (("/r").toList)
        [("b.txt").toList, ("a.txt").toList] 1).matches' <+:
      sortDistinct (globFiltered (("/r").toList) (("/r").toList)
        [("b.txt").toList, ("a.txt").toList])) := by
  decide

/-- C8 (amended): Glob returns a case-insensitively sorted, de-duplicated
list of root-relative matches and sets `truncated = true` exactly when the
limit is reached, but it truncates DURING collection and sorts afterwards:
the output is `sortDistinct` of the first `maxResults` surviving matches in
collection order (not a prefix of the full sorted set). -/
theorem globTool_sorted_dedup_truncation (root baseDir : Str) (scan : List Str)
    (limit : Nat) (h : 1 ≤ limit) :
    (globTool root baseDir scan limit).matches' =
      sortDistinct ((globFiltered root baseDir scan).take limit) ∧
    (globTool root baseDir scan limit).truncated =
      decide (limit ≤ (globFiltered root baseDir scan).length) ∧
    List.Sorted ciLe (globTool root baseDir scan limit).matches' ∧
    (globTool root baseDir scan limit).matches'.Nodup := by
  have hc := globCollect_characterization root baseDir limit scan []
    (by simp only [List.length_nil]; omega)
  have hm : (globTool root baseDir scan limit).matches' =
      sortDistinct ((globFiltered root baseDir scan).take limit) := by
    simp only [globTool, hc, List.nil_append, List.length_nil, Nat.sub_zero]
  refine ⟨hm, ?_, ?_, ?_⟩
  · simp only [globTool, hc, List.length_nil, Nat.sub_zero]
  · rw [hm]; exact sortDistinct_sorted _
  · rw [hm]; exact sortDistinct_nodup _

theorem globTool_sorted_dedup_truncation_witness :
    1 ≤ 2 ∧
    ((globTool (("/r").toList) (("/r").toList)
        [("b.txt").toList, ("a.txt").toList, ("b.txt").toList] 2).matches' =
      sortDistinct ((globFiltered (("/r").toList) (("/r").toList)
        [("b.txt").toList, ("a.txt").toList, ("b.txt").toList]).take 2) ∧
    (globTool (("/r").toList) (("/r").toList)
        [("b.txt").toList, ("a.txt").toList, ("b.txt").toList] 2).truncated =
      decide (2 ≤ (globFiltered (("/r").toList) (("/r").toList)
        [("b.txt").toList, ("a.txt").toList, ("b.txt").toList]).length) ∧
    List.Sorted ciLe (globTool (("/r").toList) (("/r").toList)
        [("b.txt").toList, ("a.txt").toList, ("b.txt").toList] 2).matches' ∧
    (globTool (("/r").toList) (("/r").toList)
        [("b.txt").toList, ("a.txt").toList, ("b.txt").toList] 2).matches'.Nodup) :=
  ⟨by decide,
    globTool_sorted_dedup_truncation (("/r").toList) (("/r").toList)
      [("b.txt").toList, ("a.txt").toList, ("b.txt").toList] 2 (by decide)⟩

/-! ## Theorems for the Grep truncation claim -/

theorem pushLineMatches_limit (root filePath : Str) (bl : Char → Nat)
    (limit : Nat) (lineNumber charOffset byteOffset : Nat) (line : Str) :
    ∀ (ms : List (Nat × Str)) (acc : List GrepMatch), acc.length < limit →
    (pushLineMatches root filePath bl limit lineNumber charOffset byteOffset
        line ms acc).1.length ≤ limit ∧
    ((pushLineMatches root filePath bl limit lineNumber charOffset byteOffset
        line ms acc).2 = true ↔
      (pushLineMatches root filePath bl limit lineNumber charOffset byteOffset
        line ms acc).1.length = limit) := by
  intro ms
  induction ms with
  | nil =>
    intro acc h
    refine ⟨?_, ?_⟩
    · show acc.length ≤ limit
      omega
    · show (false = true ↔ acc.length = limit)
      simp only [Bool.false_eq_true, false_iff]
      omega
  | cons p rest ih =>
    intro acc h
    obtain ⟨idx, text⟩ := p
    simp only [pushLineMatches, List.length_append, List.length_cons,
      List.length_nil, Nat.zero_add]
    by_cases hl : limit ≤ acc.length + 1
    · rw [if_pos hl]
      refine ⟨?_, ?_⟩
      · simp only [List.length_append, List.length_cons, List.length_nil]
        omega
      · simp only [List.length_append, List.length_cons, List.length_nil,
          true_iff]
        omega
    · rw [if_neg hl]
      exact ih _ (by
        simp only [List.length_append, List.length_cons, List.length_nil]
        omega)

theorem streamGo_limit (root filePath : Str) (bl : Char → Nat) (m : Matcher)
    (limit : Nat) :
    ∀ (ys : List LineYield) (ln co bo : Nat) (acc : List GrepMatch),
    acc.length < limit →
    (streamGo root filePath bl m limit ys ln co bo acc).1.length ≤ limit ∧
    ((streamGo root filePath bl m limit ys ln co bo acc).2 = true ↔
      (streamGo root filePath bl m limit ys ln co bo acc).1.length = limit) := by
  intro ys
  induction ys with
  | nil =>
    intro ln co bo acc h
    refine ⟨?_, ?_⟩
    · show acc.length ≤ limit
      omega
    · show (false = true ↔ acc.length = limit)
      simp only [Bool.false_eq_true, false_iff]
      omega
  | cons y rest ih =>
    intro ln co bo acc h
    have hneg : ¬ limit ≤ acc.length := by omega
    simp only [streamGo, if_neg hneg]
    have hp := pushLineMatches_limit root filePath bl limit (ln + 1) co bo
      y.line (m y.line) acc h
    by_cases hr : (pushLineMatches root filePath bl limit (ln + 1) co bo
        y.line (m y.line) acc).2 = true
    · rw [if_pos hr]
      exact hp
    · rw [if_neg hr]
      have hlt : (pushLineMatches root filePath bl limit (ln + 1) co bo
          y.line (m y.line) acc).1.length < limit := by
        rcases hp with ⟨hle, hiff⟩
        have hne : ¬ (pushLineMatches root filePath bl limit (ln + 1) co bo
            y.line (m y.line) acc).1.length = limit := fun hl => hr (hiff.mpr hl)
        omega
      exact ih (ln + 1) (co + y.line.length + y.lineEndingChars)
        (bo + y.lineBytes + y.lineEndingBytes) _ hlt

theorem fullGo_limit (root filePath : Str) (bl : Char → Nat) (limit : Nat)
    (content : Str) (li : LineIndex) :
    ∀ (ms : List (Nat × Str)) (acc : List GrepMatch), acc.length < limit →
    (fullGo root filePath bl limit content li ms acc).1.length ≤ limit ∧
    ((fullGo root filePath bl limit content li ms acc).2 = true ↔
      (fullGo root filePath bl limit content li ms acc).1.length = limit) := by
  intro ms
  induction ms with
  | nil =>
    intro acc h
    refine ⟨?_, ?_⟩
    · show acc.length ≤ limit
      omega
    · show (false = true ↔ acc.length = limit)
      simp only [Bool.false_eq_true, false_iff]
      omega
  | cons p rest ih =>
    intro acc h
    obtain ⟨idx, text⟩ := p
    simp only [fullGo, List.length_append, List.length_cons, List.length_nil,
      Nat.zero_add]
    by_cases hl : limit ≤ acc.length + 1
    · rw [if_pos hl]
      refine ⟨?_, ?_⟩
      · simp only [List.length_append, List.length_cons, List.length_nil]
        omega
      · simp only [List.length_append, List.length_cons, List.length_nil,
          true_iff]
        omega
    · rw [if_neg hl]
      exact ih _ (by
        simp only [List.length_append, List.length_cons, List.length_nil]
        omega)

theorem grepCollect_limit (root : Str) (bl : Char → Nat) (m : Matcher)
    (useFull : Bool) (limit : Nat) :
    ∀ (files : List (Str × Str)) (acc : List GrepMatch), acc.length < limit →
    (grepCollect root bl m useFull limit files acc).1.length ≤ limit ∧
    ((grepCollect root bl m useFull limit files acc).2 = true ↔
      (grepCollect root bl m useFull limit files acc).1.length = limit) := by
  intro files
  induction files with
  | nil =>
    intro acc h
    refine ⟨?_, ?_⟩
    · show acc.length ≤ limit
      omega
    · show (false = true ↔ acc.length = limit)
      simp only [Bool.false_eq_true, false_iff]
      omega
  | cons f rest ih =>
    intro acc h
    obtain ⟨fp, content⟩ := f
    have hneg : ¬ limit ≤ acc.length := by omega
    simp only [grepCollect, if_neg hneg]
    have hscan : ((if useFull = true then
          fullScanFile root fp bl m limit content acc
        else streamScanFile root fp bl m limit content acc).1.length ≤ limit) ∧
        ((if useFull = true then
          fullScanFile root fp bl m limit content acc
        else streamScanFile root fp bl m limit content acc).2 = true ↔
        (if useFull = true then
          fullScanFile root fp bl m limit content acc
        else streamScanFile root fp bl m limit content acc).1.length = limit) := by
      by_cases hu : useFull = true
      · rw [if_pos hu]
        exact fullGo_limit root fp bl limit content (buildLineIndex bl content)
          (m content) acc h
      · rw [if_neg hu]
        exact streamGo_limit root fp bl m limit (streamLines bl content) 0 0 0
          acc h
    by_cases hr : (if useFull = true then
        fullScanFile root fp bl m limit content acc
      else streamScanFile root fp bl m limit content acc).2 = true
    · rw [if_pos hr]
      refine ⟨hscan.1, ?_⟩
      simp only [true_iff]
      exact hscan.2.mp hr
    · rw [if_neg hr]
      have hlt : (if useFull = true then
          fullScanFile root fp bl m limit content acc
        else streamScanFile root fp bl m limit content acc).1.length < limit := by
        rcases hscan with ⟨hle, hiff⟩
        have hne : ¬ (if useFull = true then
            fullScanFile root fp bl m limit content acc
          else streamScanFile root fp bl m limit content acc).1.length = limit :=
          fun hl => hr (hiff.mpr hl)
        omega
      exact ih _ hlt

/-- C10: Grep never returns more than `maxResults` matches, and it sets
`truncated = true` exactly when the number of collected matches equals
`maxResults` — including when the searched content holds exactly
`maxResults` matches and nothing was omitted. -/
theorem grepTool_truncation (root : Str) (bl : Char → Nat) (m : Matcher)
    (useFull : Bool) (limit : Nat) (files : List (Str × Str)) (h : 1 ≤ limit) :
    (grepTool root bl m useFull limit files).matches'.length ≤ limit ∧
    ((grepTool root bl m useFull limit files).truncated = true ↔
      (grepTool root bl m useFull limit files).matches'.length = limit) :=
  grepCollect_limit root bl m useFull limit files []
    (by simp only [List.length_nil]; omega)

theorem grepTool_truncation_witness :
    1 ≤ 2 ∧
    ((grepTool [] (fun _ => 1) (charMatcher 'a') false 2
        [(("f").toList, ("aa").toList)]).matches'.length ≤ 2 ∧
    ((grepTool [] (fun _ => 1) (charMatcher 'a') false 2
        [(("f").toList, ("aa").toList)]).truncated = true ↔
      (grepTool [] (fun _ => 1) (charMatcher 'a') false 2
        [(("f").toList, ("aa").toList)]).matches'.length = 2)) :=
  ⟨by decide,
    grepTool_truncation [] (fun _ => 1) (charMatcher 'a') false 2
      [(("f").toList, ("aa").toList)] (by decide)⟩

/-! ## Theorems for the streaming / full-scan equivalence claim -/

theorem streamLines_eq_yieldsOf (bl : Char → Nat) (content : Str) :
    streamLines bl content = yieldsOf bl (splitOnChar '\n' content) := rfl

theorem splitOnChar_ne_nil (sep : Char) : ∀ (s : Str), splitOnChar sep s ≠ [] := by
  intro s
  cases s with
  | nil => simp [splitOnChar]
  | cons c rest =>
    simp only [splitOnChar]
    by_cases hc : c = sep
    · rw [if_pos hc]; simp
    · rw [if_neg hc]
      cases splitOnChar sep rest <;> simp

theorem yieldsOf_cons (bl : Char → Nat) (p : Str) (rest : List Str)
    (h : rest ≠ []) :
    yieldsOf bl (p :: rest) = mkYieldNL bl p :: yieldsOf bl rest := by
  obtain ⟨q, qs, rfl⟩ := List.exists_cons_of_ne_nil h
  simp only [yieldsOf, List.dropLast_cons₂, List.map_cons, List.cons_append,
    List.getLast?_cons_cons]

theorem mkYieldNL_facts (bl : Char → Nat) (p : Str) :
    (mkYieldNL bl p).line.length ≤ p.length ∧
    (mkYieldNL bl p).line.length + (mkYieldNL bl p).lineEndingChars =
      p.length + 1 := by
  unfold mkYieldNL
  by_cases h : p.getLast? = some '\r'
  · rw [if_pos h]
    have hne : p ≠ [] := by
      intro he
      rw [he] at h
      simp at h
    have hpos : 0 < p.length := List.length_pos.mpr hne
    have hlen : p.dropLast.length = p.length - 1 := by
      simp [List.length_dropLast]
    refine ⟨?_, ?_⟩ <;> simp only [hlen] <;> omega
  · rw [if_neg h]
    exact ⟨Nat.le_refl _, rfl⟩

theorem partStarts_nil (o : Nat) : partStarts [] o = [] := rfl

theorem partStarts_single (p : Str) (o : Nat) : partStarts [p] o = [o] := rfl

theorem partStarts_cons₂ (p q : Str) (qs : List Str) (o : Nat) :
    partStarts (p :: q :: qs) o = o :: partStarts (q :: qs) (o + p.length + 1) :=
  rfl

theorem partStarts_length : ∀ (l : List Str) (o : Nat),
    (partStarts l o).length = l.length := by
  intro l
  induction l with
  | nil => intro o; rfl
  | cons p rest ih =>
    intro o
    cases rest with
    | nil => rfl
    | cons q qs =>
      rw [partStarts_cons₂, List.length_cons, List.length_cons, ih]

theorem partStarts_head : ∀ (l : List Str) (o : Nat), l ≠ [] →
    (partStarts l o).getD 0 0 = o := by
  intro l o h
  cases l with
  | nil => exact absurd rfl h
  | cons p rest =>
    cases rest with
    | nil => rfl
    | cons q qs => rfl

theorem partStarts_ge : ∀ (l : List Str) (o q : Nat),
    q ∈ partStarts l o → o ≤ q := by
  intro l
  induction l with
  | nil =>
    intro o q hq
    rw [partStarts_nil] at hq
    exact absurd hq (List.not_mem_nil q)
  | cons p rest ih =>
    intro o q hq
    cases rest with
    | nil =>
      rw [partStarts_single] at hq
      have : q = o := by simpa using hq
      omega
    | cons u us =>
      rw [partStarts_cons₂] at hq
      rcases List.mem_cons.mp hq with rfl | hq'
      · exact Nat.le_refl _
      · have := ih (o + p.length + 1) q hq'
        omega

theorem partStarts_pairwise : ∀ (l : List Str) (o : Nat),
    (partStarts l o).Pairwise (· < ·) := by
  intro l
  induction l with
  | nil => intro o; rw [partStarts_nil]; exact List.Pairwise.nil
  | cons p rest ih =>
    intro o
    cases rest with
    | nil => rw [partStarts_single]; simp
    | cons u us =>
      rw [partStarts_cons₂]
      refine List.pairwise_cons.mpr ⟨?_, ih _⟩
      intro q hq
      have := partStarts_ge (u :: us) (o + p.length + 1) q hq
      omega

theorem lineIndexGo_partStarts (bl : Char → Nat) :
    ∀ (content : Str) (o b : Nat),
    o :: (lineIndexGo bl content o b).1 =
      partStarts (splitOnChar '\n' content) o := by
  intro content
  induction content with
  | nil => intro o b; rfl
  | cons c rest ih =>
    intro o b
    by_cases hc : c = '\n'
    · subst hc
      have hsp : splitOnChar '\n' ('\n' :: rest) = [] :: splitOnChar '\n' rest := by
        simp [splitOnChar]
      rw [hsp]
      cases hp : splitOnChar '\n' rest with
      | nil => exact absurd hp (splitOnChar_ne_nil '\n' rest)
      | cons t ts =>
        have hps : partStarts ([] :: t :: ts) o =
            o :: partStarts (t :: ts) (o + 1) := by
          rw [partStarts_cons₂]
          have harith : o + ([] : Str).length + 1 = o + 1 := by simp
          rw [harith]
        rw [hps]
        have hli : (lineIndexGo bl ('\n' :: rest) o b).1 =
            (o + 1) :: (lineIndexGo bl rest (o + 1) (b + bl '\n')).1 := by
          simp [lineIndexGo]
        rw [hli]
        have hih := ih (o + 1) (b + bl '\n')
        rw [hp] at hih
        rw [hih]
    · cases hp : splitOnChar '\n' rest with
      | nil => exact absurd hp (splitOnChar_ne_nil '\n' rest)
      | cons t ts =>
        have hsp : splitOnChar '\n' (c :: rest) = (c :: t) :: ts := by
          simp only [splitOnChar, if_neg hc, hp]
        rw [hsp]
        have hli : (lineIndexGo bl (c :: rest) o b).1 =
            (lineIndexGo bl rest (o + 1) (b + bl c)).1 := by
          simp [lineIndexGo, hc]
        rw [hli]
        have hih := ih (o + 1) (b + bl c)
        rw [hp] at hih
        cases ts with
        | nil =>
          have hsingle : (o + 1) :: (lineIndexGo bl rest (o + 1) (b + bl c)).1 =
              [o + 1] := by
            rw [hih, partStarts_single]
          have hnil : (lineIndexGo bl rest (o + 1) (b + bl c)).1 = [] := by
            have := congrArg List.tail hsingle
            simpa using this
          rw [hnil, partStarts_single]
        | cons u us =>
          rw [partStarts_cons₂]
          rw [partStarts_cons₂] at hih
          have hL : (lineIndexGo bl rest (o + 1) (b + bl c)).1 =
              partStarts (u :: us) (o + 1 + t.length + 1) := by
            have := congrArg List.tail hih
            simpa using this
          rw [hL]
          have harith : o + 1 + t.length + 1 = o + (c :: t).length + 1 := by
            simp only [List.length_cons]
            omega
          rw [harith]

theorem buildLineIndex_charOffsets (bl : Char → Nat) (content : Str) :
    (buildLineIndex bl content).charOffsets =
      partStarts (splitOnChar '\n' content) 0 := by
  have := lineIndexGo_partStarts bl content 0 0
  simpa [buildLineIndex] using this

theorem yieldsOf_length_le (bl : Char → Nat) :
    ∀ (parts : List Str), (yieldsOf bl parts).length ≤ parts.length := by
  intro parts
  induction parts with
  | nil => simp [yieldsOf]
  | cons p rest ih =>
    cases rest with
    | nil =>
      by_cases hp : p = []
      · simp [yieldsOf, hp]
      · simp [yieldsOf, hp]
    | cons q qs =>
      rw [yieldsOf_cons bl p (q :: qs) (by simp)]
      rw [List.length_cons, List.length_cons]
      exact Nat.succ_le_succ ih

theorem partStarts_yields_facts (bl : Char → Nat) :
    ∀ (parts : List Str) (o i n : Nat), parts ≠ [] →
    i < (yieldsOf bl parts).length →
    n < ((yieldsOf bl parts).getD i ⟨[], 0, 0, 0⟩).line.length →
    (partStarts parts o).getD i 0 = o + offsetAt (yieldsOf bl parts) i ∧
    (i = parts.length - 1 ∨
      o + offsetAt (yieldsOf bl parts) i + n <
        (partStarts parts o).getD (i + 1) 0) := by
  intro parts
  induction parts with
  | nil => intro o i n h; exact absurd rfl h
  | cons p rest ih =>
    intro o i n _ hi hn
    cases rest with
    | nil =>
      by_cases hp : p = []
      · subst hp
        exact absurd hi (by simp [yieldsOf])
      · have hy : yieldsOf bl [p] = [⟨p, 0, byteLenStr bl p, 0⟩] := by
          simp [yieldsOf, hp]
        rw [hy] at hi hn ⊢
        have hi0 : i = 0 := by
          rw [List.length_cons, List.length_nil] at hi
          omega
        subst hi0
        refine ⟨?_, Or.inl rfl⟩
        rw [partStarts_single]
        simp [offsetAt]
    | cons q qs =>
      have hres : (q :: qs : List Str) ≠ [] := by simp
      rw [yieldsOf_cons bl p (q :: qs) hres] at hi hn ⊢
      rw [partStarts_cons₂]
      cases i with
      | zero =>
        refine ⟨by simp [offsetAt], Or.inr ?_⟩
        have hh := partStarts_head (q :: qs) (o + p.length + 1) hres
        simp only [offsetAt, List.getD_cons_succ]
        rw [hh]
        have hm := (mkYieldNL_facts bl p).1
        simp only [List.getD_cons_zero] at hn
        omega
      | succ j =>
        rw [List.length_cons] at hi
        have hj : j < (yieldsOf bl (q :: qs)).length := by omega
        simp only [List.getD_cons_succ] at hn ⊢
        obtain ⟨k1, k2⟩ := ih (o + p.length + 1) j n hres hj hn
        have hm2 := (mkYieldNL_facts bl p).2
        refine ⟨?_, ?_⟩
        · rw [k1]
          simp only [offsetAt]
          omega
        · rcases k2 with hlast | hbound
          · left
            rw [List.length_cons] at hlast ⊢
            rw [List.length_cons]
            omega
          · right
            simp only [offsetAt]
            omega

theorem sorted_getD_mono (a : List Nat) (hs : a.Pairwise (· < ·)) :
    ∀ (i k : Nat), i ≤ k → k < a.length → a.getD i 0 ≤ a.getD k 0 := by
  intro i k hik hk
  rcases Nat.eq_or_lt_of_le hik with rfl | hlt
  · exact Nat.le_refl _
  · have hi : i < a.length := Nat.lt_trans hlt hk
    have hg := List.pairwise_iff_get.mp hs ⟨i, hi⟩ ⟨k, hk⟩ hlt
    rw [List.getD_eq_get _ _ hi, List.getD_eq_get _ _ hk]
    exact Nat.le_of_lt hg

theorem findGo_correct (a b : List Nat) (x : Nat) (hs : a.Pairwise (· < ·)) :
    ∀ (n : Nat) (low high : Int) (j : Nat),
    (high + 1 - low).toNat ≤ n →
    0 ≤ low →
    j < a.length → low ≤ (j : Int) → (j : Int) ≤ high →
    high < (a.length : Int) →
    a.getD j 0 ≤ x →
    (j = a.length - 1 ∨ x < a.getD (j + 1) 0) →
    findGo a b x low high = (j + 1, a.getD j 0, b.getD j 0) := by
  intro n
  induction n with
  | zero =>
    intro low high j hm hl0 hj hlo hhi hhl hle hnext
    omega
  | succ n ih =>
    intro low high j hm hl0 hj hlo hhi hhl hle hnext
    have hlh : low ≤ high := le_trans hlo hhi
    rw [findGo, dif_pos hlh]
    dsimp only
    have h1 : low + low ≤ low + high := by omega
    have h2 : low + high ≤ high + high := by omega
    have h3 := Int.ediv_le_ediv (by omega : (0 : Int) < 2) h1
    have h4 := Int.ediv_le_ediv (by omega : (0 : Int) < 2) h2
    have hml : low ≤ (low + high) / 2 := by omega
    have hmh : (low + high) / 2 ≤ high := by omega
    have hmn : ((((low + high) / 2).toNat : Int)) = (low + high) / 2 :=
      Int.toNat_of_nonneg (by omega)
    have hmnlen : ((low + high) / 2).toNat < a.length := by omega
    by_cases hcmp : a.getD ((low + high) / 2).toNat 0 ≤ x
    · rw [if_pos hcmp]
      by_cases hexit : ((low + high) / 2).toNat = a.length - 1 ∨
          x < a.getD (((low + high) / 2).toNat + 1) 0
      · rw [if_pos hexit]
        have hmj : ((low + high) / 2).toNat = j := by
          rcases Nat.lt_trichotomy (((low + high) / 2).toNat) j with hlt | heq | hgt
          · exfalso
            rcases hexit with hlast | hnn
            · omega
            · have hmono : a.getD (((low + high) / 2).toNat + 1) 0 ≤ a.getD j 0 :=
                sorted_getD_mono a hs _ j hlt hj
              omega
          · exact heq
          · exfalso
            rcases hnext with hlast | hnn
            · omega
            · have hmono : a.getD (j + 1) 0 ≤ a.getD (((low + high) / 2).toNat) 0 :=
                sorted_getD_mono a hs (j + 1) _ hgt hmnlen
              omega
        rw [hmj]
      · rw [if_neg hexit]
        push_neg at hexit
        obtain ⟨hne, hle2⟩ := hexit
        have hjge : (low + high) / 2 + 1 ≤ (j : Int) := by
          by_contra hcon
          push_neg at hcon
          have hjmn : j ≤ ((low + high) / 2).toNat := by omega
          rcases hnext with hlast | hnn
          · omega
          · have hmono : a.getD (j + 1) 0 ≤ a.getD (((low + high) / 2).toNat + 1) 0 :=
              sorted_getD_mono a hs (j + 1) _ (by omega) (by omega)
            omega
        exact ih ((low + high) / 2 + 1) high j (by omega) (by omega) hj hjge hhi
          hhl hle hnext
    · rw [if_neg hcmp]
      have hjlt : (j : Int) ≤ (low + high) / 2 - 1 := by
        by_contra hcon
        push_neg at hcon
        have hmnj : ((low + high) / 2).toNat ≤ j := by omega
        have hmono : a.getD (((low + high) / 2).toNat) 0 ≤ a.getD j 0 :=
          sorted_getD_mono a hs _ j hmnj hj
        omega
      exact ih low ((low + high) / 2 - 1) j (by omega) hl0 hj hlo hjlt (by omega)
        hle hnext

theorem fullGo_append (root fp : Str) (bl : Char → Nat) (limit : Nat)
    (content : Str) (li : LineIndex) :
    ∀ (ms₁ ms₂ : List (Nat × Str)) (acc : List GrepMatch),
    fullGo root fp bl limit content li (ms₁ ++ ms₂) acc =
      (if (fullGo root fp bl limit content li ms₁ acc).2 = true
        then fullGo root fp bl limit content li ms₁ acc
        else fullGo root fp bl limit content li ms₂
          (fullGo root fp bl limit content li ms₁ acc).1) := by
  intro ms₁
  induction ms₁ with
  | nil =>
    intro ms₂ acc
    simp [fullGo]
  | cons e rest ih =>
    intro ms₂ acc
    obtain ⟨idx, text⟩ := e
    rw [List.cons_append]
    simp only [fullGo]
    by_cases hl : limit ≤
        (acc ++ [fullGoMatch root fp bl content li idx text]).length
    · rw [if_pos hl, if_pos hl]
      simp
    · rw [if_neg hl, if_neg hl]
      exact ih ms₂ _
theorem pushSim (root fp : Str) (bl : Char → Nat) (limit : Nat) (li : LineIndex)
    (content : Str) :
    ∀ (ps : List (Nat × Str)) (ln co bo off : Nat) (line : Str)
      (acc1 acc2 : List GrepMatch),
    acc1.map matchProjection = acc2.map matchProjection →
    (∀ p ∈ ps, (findLineStartIndex li (off + p.1)).1 = ln ∧
      (findLineStartIndex li (off + p.1)).2.1 = off) →
    (pushLineMatches root fp bl limit ln co bo line ps acc1).1.map
        matchProjection =
      (fullGo root fp bl limit content li
        (ps.map fun p => (off + p.1, p.2)) acc2).1.map matchProjection ∧
    (pushLineMatches root fp bl limit ln co bo line ps acc1).2 =
      (fullGo root fp bl limit content li
        (ps.map fun p => (off + p.1, p.2)) acc2).2 := by
  intro ps
  induction ps with
  | nil =>
    intro ln co bo off line acc1 acc2 hproj _
    exact ⟨hproj, rfl⟩
  | cons p0 rest ih =>
    intro ln co bo off line acc1 acc2 hproj hlook
    obtain ⟨idx, text⟩ := p0
    have hlen : acc1.length = acc2.length := by
      have := congrArg List.length hproj
      simpa using this
    have hhead := hlook (idx, text) (List.mem_cons_self _ _)
    dsimp only at hhead
    have htail : ∀ p ∈ rest, (findLineStartIndex li (off + p.1)).1 = ln ∧
        (findLineStartIndex li (off + p.1)).2.1 = off :=
      fun p hp => hlook p (List.mem_cons_of_mem _ hp)
    have hg : matchProjection ⟨toRepoRelative root fp, ln, idx + 1, text,
        buildContextSnippet line idx text.length, co + idx,
        bo + byteLenStr bl (line.take idx)⟩ =
        matchProjection (fullGoMatch root fp bl content li (off + idx) text) := by
      simp only [matchProjection, fullGoMatch]
      rw [hhead.1, hhead.2]
      simp
    simp only [List.map_cons]
    simp only [pushLineMatches, fullGo, List.length_append, List.length_cons,
      List.length_nil, Nat.zero_add]
    rw [← hlen]
    by_cases hl : limit ≤ acc1.length + 1
    · rw [if_pos hl, if_pos hl]
      refine ⟨?_, rfl⟩
      simp only [List.map_append, List.map_cons, List.map_nil, hproj, hg]
    · rw [if_neg hl, if_neg hl]
      apply ih
      · simp only [List.map_append, List.map_cons, List.map_nil, hproj, hg]
      · exact htail

theorem streamSim (root fp : Str) (bl : Char → Nat) (m : Matcher) (limit : Nat)
    (li : LineIndex) (content : Str) :
    ∀ (ys : List LineYield) (k off bo : Nat) (acc1 acc2 : List GrepMatch),
    acc1.map matchProjection = acc2.map matchProjection →
    acc1.length < limit →
    (∀ (i : Nat), i < ys.length →
      ∀ p ∈ m ((ys.getD i ⟨[], 0, 0, 0⟩).line),
      (findLineStartIndex li (off + offsetAt ys i + p.1)).1 = k + i + 1 ∧
      (findLineStartIndex li (off + offsetAt ys i + p.1)).2.1 =
        off + offsetAt ys i) →
    (streamGo root fp bl m limit ys k off bo acc1).1.map matchProjection =
      (fullGo root fp bl limit content li (expandGo m ys off) acc2).1.map
        matchProjection ∧
    (streamGo root fp bl m limit ys k off bo acc1).2 =
      (fullGo root fp bl limit content li (expandGo m ys off) acc2).2 := by
  intro ys
  induction ys with
  | nil =>
    intro k off bo acc1 acc2 hproj _ _
    exact ⟨hproj, rfl⟩
  | cons y rest ih =>
    intro k off bo acc1 acc2 hproj hlt hlook
    have hneg : ¬ limit ≤ acc1.length := by omega
    simp only [streamGo, if_neg hneg, expandGo]
    rw [fullGo_append]
    have hhead : ∀ p ∈ m y.line, (findLineStartIndex li (off + p.1)).1 = k + 1 ∧
        (findLineStartIndex li (off + p.1)).2.1 = off := by
      intro p hp
      have h0 := hlook 0 (by simp) p (by simpa using hp)
      simpa [offsetAt] using h0
    have hps := pushSim root fp bl limit li content (m y.line) (k + 1) off bo off
      y.line acc1 acc2 hproj hhead
    by_cases hr : (pushLineMatches root fp bl limit (k + 1) off bo y.line
        (m y.line) acc1).2 = true
    · rw [if_pos hr]
      have hr2 : (fullGo root fp bl limit content li
          ((m y.line).map fun p => (off + p.1, p.2)) acc2).2 = true := by
        rw [← hps.2]
        exact hr
      rw [if_pos hr2]
      exact hps
    · rw [if_neg hr]
      have hr2 : ¬ (fullGo root fp bl limit content li
          ((m y.line).map fun p => (off + p.1, p.2)) acc2).2 = true := by
        rw [← hps.2]
        exact hr
      rw [if_neg hr2]
      have hpl := pushLineMatches_limit root fp bl limit (k + 1) off bo y.line
        (m y.line) acc1 hlt
      have hlt' : (pushLineMatches root fp bl limit (k + 1) off bo y.line
          (m y.line) acc1).1.length < limit := by
        have hne : ¬ (pushLineMatches root fp bl limit (k + 1) off bo y.line
            (m y.line) acc1).1.length = limit := fun he => hr (hpl.2.mpr he)
        have hle := hpl.1
        omega
      have hlook' : ∀ (i : Nat), i < rest.length →
          ∀ p ∈ m ((rest.getD i ⟨[], 0, 0, 0⟩).line),
          (findLineStartIndex li
            (off + y.line.length + y.lineEndingChars + offsetAt rest i + p.1)).1 =
            (k + 1) + i + 1 ∧
          (findLineStartIndex li
            (off + y.line.length + y.lineEndingChars + offsetAt rest i + p.1)).2.1 =
            off + y.line.length + y.lineEndingChars + offsetAt rest i := by
        intro i hi p hp
        have h0 := hlook (i + 1) (by simp only [List.length_cons]; omega) p
          (by simpa using hp)
        have harg : off + offsetAt (y :: rest) (i + 1) + p.1 =
            off + y.line.length + y.lineEndingChars + offsetAt rest i + p.1 := by
          simp only [offsetAt]
          omega
        have hval : off + offsetAt (y :: rest) (i + 1) =
            off + y.line.length + y.lineEndingChars + offsetAt rest i := by
          simp only [offsetAt]
          omega
        rw [harg, hval] at h0
        refine ⟨?_, h0.2⟩
        rw [h0.1]
        omega
      exact ih (k + 1) (off + y.line.length + y.lineEndingChars)
        (bo + y.lineBytes + y.lineEndingBytes) _ _ hps.1 hlt' hlook'

/-- C7 (amended): for every file content and every line-local pattern —
an abstract matcher whose whole-content match list equals its per-line match
lists re-based at the line starts (the semantic form of "cannot match across
a line boundary"), with every match nonempty and lying inside its line — the
streaming line-by-line scan and the full-buffer scan produce identical match
sequences when projected to (line, column, matched text), and they agree on
the truncation flag. The purely syntactic single-line condition (no newline,
no escape, no dotall) is not sufficient: see the counterexample with the
end-of-line anchor `a$`. -/
theorem streaming_fullscan_agree (root filePath : Str) (bl : Char → Nat)
    (m : Matcher) (limit : Nat) (content : Str)
    (hlim : 1 ≤ limit)
    (hloc : m content = expandLineMatches bl m content)
    (hb : ∀ l : Str, ∀ p ∈ m l, 1 ≤ p.2.length ∧ p.1 + p.2.length ≤ l.length) :
    (streamScanFile root filePath bl m limit content []).1.map matchProjection =
      (fullScanFile root filePath bl m limit content []).1.map matchProjection ∧
    (streamScanFile root filePath bl m limit content []).2 =
      (fullScanFile root filePath bl m limit content []).2 := by
  have hparts : splitOnChar '\n' content ≠ [] := splitOnChar_ne_nil '\n' content
  have hco : (buildLineIndex bl content).charOffsets =
      partStarts (splitOnChar '\n' content) 0 :=
    buildLineIndex_charOffsets bl content
  have hlen_ps : (partStarts (splitOnChar '\n' content) 0).length =
      (splitOnChar '\n' content).length := partStarts_length _ 0
  have hys : streamLines bl content = yieldsOf bl (splitOnChar '\n' content) :=
    streamLines_eq_yieldsOf bl content
  have hylen := yieldsOf_length_le bl (splitOnChar '\n' content)
  have hlook : ∀ (i : Nat), i < (streamLines bl content).length →
      ∀ p ∈ m ((streamLines bl content).getD i ⟨[], 0, 0, 0⟩).line,
      (findLineStartIndex (buildLineIndex bl content)
        (0 + offsetAt (streamLines bl content) i + p.1)).1 = 0 + i + 1 ∧
      (findLineStartIndex (buildLineIndex bl content)
        (0 + offsetAt (streamLines bl content) i + p.1)).2.1 =
        0 + offsetAt (streamLines bl content) i := by
    intro i hi p hp
    have hbp := hb ((streamLines bl content).getD i ⟨[], 0, 0, 0⟩).line p hp
    have hn : p.1 < ((yieldsOf bl (splitOnChar '\n' content)).getD i
        ⟨[], 0, 0, 0⟩).line.length := by
      rw [← hys]
      omega
    have hiy : i < (yieldsOf bl (splitOnChar '\n' content)).length := by
      rw [← hys]
      exact hi
    obtain ⟨k1, k2⟩ := partStarts_yields_facts bl (splitOnChar '\n' content) 0 i
      p.1 hparts hiy hn
    have hia : i < (partStarts (splitOnChar '\n' content) 0).length := by
      rw [hlen_ps]
      omega
    have hfc := findGo_correct (partStarts (splitOnChar '\n' content) 0)
      ((buildLineIndex bl content).byteOffsets)
      (0 + offsetAt (streamLines bl content) i + p.1)
      (partStarts_pairwise _ 0)
      ((partStarts (splitOnChar '\n' content) 0).length + 1)
      0
      (((partStarts (splitOnChar '\n' content) 0).length : Int) - 1)
      i
      (by omega)
      (by omega)
      hia
      (by omega)
      (by omega)
      (by omega)
      (by rw [hys]; omega)
      (by
        rw [hys]
        rcases k2 with h | h
        · left
          omega
        · right
          omega)
    have hfl : findLineStartIndex (buildLineIndex bl content)
        (0 + offsetAt (streamLines bl content) i + p.1) =
        (i + 1, (partStarts (splitOnChar '\n' content) 0).getD i 0,
          (buildLineIndex bl content).byteOffsets.getD i 0) := by
      unfold findLineStartIndex
      rw [hco]
      exact hfc
    refine ⟨?_, ?_⟩
    · rw [hfl]
      dsimp only
      omega
    · rw [hfl]
      dsimp only
      rw [hys]
      exact k1
  have hsim := streamSim root filePath bl m limit (buildLineIndex bl content)
    content (streamLines bl content) 0 0 0 [] [] rfl
    (by simp only [List.length_nil]; omega) hlook
  constructor
  · have h1 := hsim.1
    show (streamGo root filePath bl m limit (streamLines bl content)
        0 0 0 []).1.map matchProjection =
      (fullGo root filePath bl limit content (buildLineIndex bl content)
        (m content) []).1.map matchProjection
    rw [hloc]
    exact h1
  · have h2 := hsim.2
    show (streamGo root filePath bl m limit (streamLines bl content)
        0 0 0 []).2 =
      (fullGo root filePath bl limit content (buildLineIndex bl content)
        (m content) []).2
    rw [hloc]
    exact h2

theorem enumFrom_fst_lt : ∀ (l : Str) (n : Nat) (q : Nat × Char),
    q ∈ l.enumFrom n → q.1 < n + l.length := by
  intro l
  induction l with
  | nil =>
    intro n q hq
    simp [List.enumFrom] at hq
  | cons c cs ih =>
    intro n q hq
    simp only [List.enumFrom] at hq
    rcases List.mem_cons.mp hq with rfl | hq'
    · simp only [List.length_cons]
      omega
    · have := ih (n + 1) q hq'
      simp only [List.length_cons]
      omega

theorem charMatcher_bounds (ch : Char) :
    ∀ (l : Str), ∀ p ∈ charMatcher ch l,
    1 ≤ p.2.length ∧ p.1 + p.2.length ≤ l.length := by
  intro l p hp
  simp only [charMatcher, List.mem_map] at hp
  obtain ⟨q, hq, rfl⟩ := hp
  have hq' := List.mem_filter.mp hq
  have hlt := enumFrom_fst_lt l 0 q hq'.1
  refine ⟨by simp, ?_⟩
  simp only [List.length_cons, List.length_nil]
  omega

theorem streaming_fullscan_agree_witness :
    1 ≤ 2 ∧
    charMatcher 'b' (("ab\ncb").toList) =
      expandLineMatches (fun _ => 1) (charMatcher 'b') (("ab\ncb").toList) ∧
    ((streamScanFile [] (("f").toList) (fun _ => 1) (charMatcher 'b') 2
        (("ab\ncb").toList) []).1.map matchProjection =
      (fullScanFile [] (("f").toList) (fun _ => 1) (charMatcher 'b') 2
        (("ab\ncb").toList) []).1.map matchProjection ∧
    (streamScanFile [] (("f").toList) (fun _ => 1) (charMatcher 'b') 2
        (("ab\ncb").toList) []).2 =
      (fullScanFile [] (("f").toList) (fun _ => 1) (charMatcher 'b') 2
        (("ab\ncb").toList) []).2) :=
  ⟨by decide, by decide,
    streaming_fullscan_agree [] (("f").toList) (fun _ => 1) (charMatcher 'b') 2
      (("ab\ncb").toList) (by decide) (by decide) (charMatcher_bounds 'b')⟩

/-- C7: counterexample — the syntactic single-line condition does not make
the two strategies agree. The pattern `a$` has no newline, no `\n` or `\r`
escape and no dotall flag (`shouldUseFullScan` routes it to streaming), and
its faithful embedding is `endAnchorMatcher 'a'`: without the `m` flag, `$`
anchors at end of input only. On the content `"a\nb"` the streaming scan
matches `a` on line 1 (the line `"a"` ends in `a`), but the full-buffer scan
finds no match (the whole content ends in `b`), so the projected
(line, column, matchedText) sequences differ. -/
theorem streaming_fullscan_disagree_counterexample :
    shouldUseFullScan (("a$").toList) none = false ∧
    (streamScanFile [] (("f").toList) (fun _ => 1) (endAnchorMatcher 'a') 10
        (("a\nb").toList) []).1.map matchProjection = [(1, 1, ['a'])] ∧
    (fullScanFile [] (("f").toList) (fun _ => 1) (endAnchorMatcher 'a') 10
        (("a\nb").toList) []).1.map matchProjection = [] ∧
    ¬ ((streamScanFile [] (("f").toList) (fun _ => 1) (endAnchorMatcher 'a') 10
        (("a\nb").toList) []).1.map matchProjection =
      (fullScanFile [] (("f").toList) (fun _ => 1) (endAnchorMatcher 'a') 10
        (("a\nb").toList) []).1.map matchProjection) := by
  decide

end Airbot
